import Mathlib

/-!
Verification development for the core of the `html` tagged-template library
(`src/paths.ts`: the path-based address resolver, template compiler,
instantiation engine and update rules).

The host DOM is shallowly embedded as a pure rose tree of nodes.  Each node
carries a numeric `id` standing for JavaScript object identity: in the real
DOM two node references are `===`-equal exactly when they are the same
object, which the embedding renders as equality of ids (trees produced by
the operations below keep ids pairwise distinct, and theorems that depend on
identity carry an explicit `Nodup` hypothesis).  Text data and attribute
values are `List Char` (JS strings).  Node allocation (`createTextNode`,
`importNode`) is modelled by threading a fresh-id counter in place of the
`document` parameter of the source functions.  Fallible steps (unsound
`as ChildNode` / `as Element` casts, out-of-range `childNodes[i]` accesses,
which in JS surface as a `TypeError` either at the access or at the first
use of the bogus reference) are modelled with `Except`.
-/

/-- A DOM node: an element with a tag, attributes (name/value pairs, in
order) and child nodes, or a text node with character data.  `id` models
object identity. -/
inductive DNode where
  | elem (id : Nat) (tag : String) (attrs : List (String × List Char)) (children : List DNode)
  | text (id : Nat) (data : List Char)

/-- The object identity of a node. -/
def DNode.id : DNode → Nat
  | .elem i _ _ _ => i
  | .text i _ => i

/-- `node.childNodes` (a text node has none). -/
def DNode.children : DNode → List DNode
  | .elem _ _ _ cs => cs
  | .text _ _ => []

/-- `node.nodeType === Node.TEXT_NODE`. -/
def DNode.isText : DNode → Bool
  | .elem _ _ _ _ => false
  | .text _ _ => true

/-- The placeholder marker character (`export const replacement = '⚡'`). -/
def replacement : Char := '⚡'

/-- A compiled slot descriptor (`TemplateSlot` in the source): either a
`node`-kind slot (a path to the isolated marker text node) or an
`attr-value` slot (a path to the owning element plus the attribute name). -/
inductive TemplateSlot where
  | node (path : List Nat)
  | attrValue (path : List Nat) (name : String)

/-- The path stored in a slot descriptor. -/
def TemplateSlot.path : TemplateSlot → List Nat
  | .node p => p
  | .attrValue p _ => p

/-- A compiled template (`Template` in the source; the wrapping
`HTMLTemplateElement` object carries no further information and is
dropped).  `content` is the parsed-and-split fragment: the list of
top-level child nodes of the template's `DocumentFragment`. -/
structure Template where
  content : List DNode
  slots : List TemplateSlot

/-- An interpolation value (`TemplateArgument = string | Node | false |
null`).  A `DocumentFragment` argument is a `Node` in the DOM; it gets its
own constructor `frag` (carrying its child list) because `before()` drains
a fragment's children instead of inserting the fragment itself.  `undefined`
(a missing argument) takes the same `arg != null && arg !== false` branches
as `null`, so it is mapped to `nul` where arguments are fetched. -/
inductive TemplateArgument where
  | str (s : List Char)
  | node (n : DNode)
  | frag (children : List DNode)
  | nul
  | fls

/-!
## The compiler's text-node splitting

The source walks every text node and, for each occurrence of the marker,
executes

    const before = text;
    text = text.splitText(dataIndex + 1);        -- unconditional first split
    const split = dataIndex ? before.splitText(dataIndex) : before;

so a text node with data `d` is replaced (in place, keeping the original
node as the first piece) by the sequence of pieces: for each marker
occurrence, the non-empty run of preceding characters (if any), then a
one-character piece holding exactly the marker, and after the last marker
the (possibly empty) remainder — the unconditional first split guarantees
that remainder piece exists even when the marker is the last character.
`splitPieces` computes that sequence by structural recursion on the data
(the `Bool` flags the marker pieces, which become `node`-kind slots); it
agrees with the `indexOf`-driven loop because `indexOf` always finds the
first remaining occurrence.
-/

/-- The pieces a text node's data is split into, in order; `true` marks the
isolated one-character marker pieces. -/
def splitPieces : List Char → List (List Char × Bool)
  | [] => [([], false)]
  | c :: cs =>
    if c = replacement then ([replacement], true) :: splitPieces cs
    else
      match splitPieces cs with
      | (p, false) :: rest => (c :: p, false) :: rest
      | ps => ([c], false) :: ps

/-- Indices (counting from `i`) of the marker pieces in a piece list. -/
def markerIdxs (i : Nat) : List (List Char × Bool) → List Nat
  | [] => []
  | (_, b) :: rest => (if b then [i] else []) ++ markerIdxs (i + 1) rest

/-- Turn pieces into text nodes with fresh ids (used for every piece except
the first, which keeps the original node's identity, as `splitText` keeps
the original node as the first fragment). -/
def piecesToNodes (fresh : Nat) : List (List Char × Bool) → List DNode × Nat
  | [] => ([], fresh)
  | (d, _) :: rest =>
    let (ns, f) := piecesToNodes (fresh + 1) rest
    (DNode.text fresh d :: ns, f)

/-- The text nodes replacing a text node `text id d` after splitting. -/
def splitNodes (id fresh : Nat) (ps : List (List Char × Bool)) : List DNode × Nat :=
  match ps with
  | [] => ([], fresh)
  | (d, _) :: rest =>
    let (ns, f) := piecesToNodes fresh rest
    (DNode.text id d :: ns, f)

/-- `attr-value` slots of one element: one slot per attribute whose value is
exactly the marker (`attr.value === replacement`), in attribute order. -/
def attrSlotsOf (p : List Nat) (attrs : List (String × List Char)) : List TemplateSlot :=
  attrs.filterMap fun a =>
    if a.2 = [replacement] then some (.attrValue p a.1) else none

/-!
## The compiler's tree walk (`createTemplate`)

The source drives a `NodeIterator` (elements and text, document order) and
fetches the successor before mutating the current node, so the pieces a
text node is split into are never revisited.  Functionally that is a
pre-order traversal of the original tree in which every text node is
replaced by its pieces.  Slot paths are produced by `pathToNode(content,
·)` at split / visit time; because the walk is forward-only and a split
only inserts nodes *after* the split point, every index on an
already-computed path is final, so the walk below can compute each path
directly against the final tree: `p` is the (final) path of the parent and
`i` the (final) index of the next node to be emitted in the parent's child
list.
-/

mutual

/-- Visit one node of the walk: a text node is replaced by its split
pieces and yields one `node`-kind slot per marker piece (at the marker's
final index `p ++ [j]`, which is what `pathToNode(content, split)` returns
at split time, the walk being forward-only); an element yields its
`attr-value` slots and recurses into its children.  Returns the
replacement nodes, the slots in document order and the fresh-id counter. -/
def walkNode (fresh : Nat) (p : List Nat) (i : Nat) :
    DNode → List DNode × List TemplateSlot × Nat
  | DNode.text id d =>
    let ps := splitPieces d
    let (pns, f1) := splitNodes id fresh ps
    ((pns, (markerIdxs i ps).map fun j => TemplateSlot.node (p ++ [j]), f1))
  | DNode.elem id tag attrs children =>
    let aslots := attrSlotsOf (p ++ [i]) attrs
    let (cns, cslots, f1) := walkChildren fresh (p ++ [i]) 0 children
    ([DNode.elem id tag attrs cns], aslots ++ cslots, f1)

/-- Walk a child list in document order: `p` is the parent's path, `i` the
final index of the next node to be emitted (it advances by the number of
nodes the visit of each child leaves behind). -/
def walkChildren (fresh : Nat) (p : List Nat) (i : Nat) :
    List DNode → List DNode × List TemplateSlot × Nat
  | [] => ([], [], fresh)
  | n :: rest =>
    let (ns1, sl1, f1) := walkNode fresh p i n
    let (ns2, sl2, f2) := walkChildren f1 p (i + ns1.length) rest
    (ns1 ++ ns2, sl1 ++ sl2, f2)

end

/-- `strings.join(replacement)`: the parseable text handed to the host
parser, also used in the slot-count error message. -/
def joinMarker : List (List Char) → List Char
  | [] => []
  | [s] => s
  | s :: rest => s ++ replacement :: joinMarker rest

/-- The slot-count construction error message
(`Could not find all replacements in template: ...`). -/
def slotCountErr (strings : List (List Char)) : List Char :=
  String.toList "Could not find all replacements in template: " ++ joinMarker strings

/-- The slots discovered by the compiler's walk over a parsed content tree
(starting the fresh-id counter at `fresh`). -/
def discoveredSlots (content : List DNode) (fresh : Nat) : List TemplateSlot :=
  (walkChildren fresh [] 0 content).2.1

/-- `createTemplate(document, strings)`.  Parsing
`strings.join(replacement)` is done by the host DOM (`element.innerHTML`),
an external collaborator; the embedding therefore takes the parsed
fragment children `content` as an argument alongside the literal fragments
`strings`.  `fresh` seeds node allocation for the split pieces.  The
`slots.length !== strings.length - 1` check is over JS numbers, hence the
`Int` comparison (JS `strings.length - 1` is `-1` for an empty array). -/
def createTemplate (strings : List (List Char)) (content : List DNode) (fresh : Nat) :
    Except (List Char) Template :=
  let (ns, slots, _) := walkChildren fresh [] 0 content
  if (slots.length : Int) ≠ (strings.length : Int) - 1 then
    .error (slotCountErr strings)
  else
    .ok { content := ns, slots := slots }

/-!
## Instantiation: cloning and anchor resolution

`createTemplateInstance` first deep-clones the compiled content
(`document.importNode(template.content, true)`), which produces a
structurally identical tree of fresh node objects — here: fresh ids.
-/

mutual

/-- Deep-clone one node with fresh ids (`importNode`, single node). -/
def relabelNode (fresh : Nat) : DNode → DNode × Nat
  | .text _ d => (.text fresh d, fresh + 1)
  | .elem _ t a ch =>
    let (cs, f) := relabelList (fresh + 1) ch
    (.elem fresh t a cs, f)

/-- Deep-clone a child list with fresh ids (`importNode(content, true)`). -/
def relabelList (fresh : Nat) : List DNode → List DNode × Nat
  | [] => ([], fresh)
  | n :: rest =>
    let (n', f1) := relabelNode fresh n
    let (ns, f2) := relabelList f1 rest
    (n' :: ns, f2)

end

/-- A resolved `node`-kind anchor (`NodeSlot`).  The source stores
`node.previousSibling` and `node.nextSibling as ChildNode`; the unsound
cast means `endBefore` can in truth be null, so both fields are `Option`
here (the ids of the boundary nodes). -/
structure NodeSlot where
  startAfter : Option Nat
  endBefore : Option Nat

/-- A resolved `attr-value` anchor (`AttrValueSlot`): the owning element's
identity and the attribute name. -/
structure AttrValueSlot where
  element : Nat
  name : String

/-- A live instance slot (`TemplateInstanceSlot`). -/
inductive TemplateInstanceSlot where
  | node (s : NodeSlot)
  | attrValue (s : AttrValueSlot)

/-- A template instance (`TemplateInstance`): the (mutated) clone's child
list plus the anchors, also partitioned by kind as in the source. -/
structure TemplateInstance where
  fragment : List DNode
  slots : List TemplateInstanceSlot
  nodeSlots : List NodeSlot
  attrValueSlots : List AttrValueSlot

/-- Resolve a `node`-kind slot path against a clone: the source runs
`nodeFromPath(fragment, path)` and then reads the node's
`previousSibling` / `nextSibling`.  On a pure tree that is: descend to the
addressed node's position and read the ids of its neighbours in its
parent's child list.  A path that runs off the tree leaves the source with
an `undefined` reference whose very next property access throws, aborting
instantiation — modelled as `Except.error`.  The empty path addresses the
fragment root itself, which has no siblings. -/
def resolveNodeAnchor (cs : List DNode) : List Nat → Except (List Char) NodeSlot
  | [] => .ok ⟨none, none⟩
  | [j] =>
    match cs.get? j with
    | none => .error (String.toList "TypeError: unresolvable address")
    | some _ =>
      .ok ⟨if j = 0 then none else (cs.get? (j - 1)).map DNode.id,
           (cs.get? (j + 1)).map DNode.id⟩
  | j :: rest =>
    match cs.get? j with
    | none => .error (String.toList "TypeError: unresolvable address")
    | some n => resolveNodeAnchor n.children rest

/-- Resolve an `attr-value` slot path to the addressed node's identity
(`nodeFromPath` + the `as Element` cast; the empty path would address the
fragment root, on which every later attribute operation throws, so the
call fails either way — never reached for compiled templates, whose attr
paths always address an element). -/
def resolveTargetId (cs : List DNode) : List Nat → Except (List Char) Nat
  | [] => .error (String.toList "TypeError: fragment root is not an element")
  | [j] =>
    match cs.get? j with
    | none => .error (String.toList "TypeError: unresolvable address")
    | some n => .ok n.id
  | j :: rest =>
    match cs.get? j with
    | none => .error (String.toList "TypeError: unresolvable address")
    | some n => resolveTargetId n.children rest

/-- The first loop of `createTemplateInstance`: resolve every slot
descriptor against the clone, in order, producing the live anchors.  This
phase only reads the clone. -/
def resolveSlots (frag : List DNode) : List TemplateSlot → Except (List Char) (List TemplateInstanceSlot)
  | [] => .ok []
  | .node p :: rest => do
    let a ← resolveNodeAnchor frag p
    let rs ← resolveSlots frag rest
    .ok (.node a :: rs)
  | .attrValue p nm :: rest => do
    let e ← resolveTargetId frag p
    let rs ← resolveSlots frag rest
    .ok (.attrValue ⟨e, nm⟩ :: rs)

/-!
## The update rule

`collectChildNodes` re-scans the live sibling structure between the two
boundary nodes on every call.  Here a "live sibling structure" is the
child list `l` of the parent of `endBefore`; the forward walk from
`startAfter` is "drop through the node with that id, then take until the
node with id `endBefore`", and the backward walk (no `startAfter`) yields
the prefix of the list before `endBefore`.
-/

/-- Drop list elements up to and including the node with id `s` (the
forward walk starts at `startAfter.nextSibling`); if `s` is not among the
siblings — it was externally detached, so its `nextSibling` is null — the
walk collects nothing. -/
def dropThroughId (s : Nat) : List DNode → List DNode
  | [] => []
  | n :: rest => if n.id = s then rest else dropThroughId s rest

/-- `collectChildNodes(startAfter, endBefore)` over the sibling list `l`. -/
def collectChildNodes (startAfter : Option Nat) (endBefore : Nat) (l : List DNode) : List DNode :=
  match startAfter with
  | some s => (dropThroughId s l).takeWhile fun n => n.id ≠ endBefore
  | none => l.takeWhile fun n => n.id ≠ endBefore

/-- Ids of the members of a child list (top level only). -/
def topIds (l : List DNode) : List Nat := l.map DNode.id

/-- Remove from a child list every node whose id is listed
(the `node.remove()` calls of the update rule). -/
def removeIdsL (ids : List Nat) (l : List DNode) : List DNode :=
  l.filter fun n => ¬ ids.contains n.id

/-- Mutate the data of the text node with id `tid` in place
(`textNode.data = arg`). -/
def setDataL (tid : Nat) (s : List Char) (l : List DNode) : List DNode :=
  l.map fun n =>
    match n with
    | .text id _ => if id = tid then .text id s else n
    | _ => n

/-- Insert nodes immediately before the node with id `e`
(`endBefore.before(...)`); if `e` is absent the call is a no-op (a node
with no parent ignores `before`). -/
def insertBeforeId (e : Nat) (new : List DNode) : List DNode → List DNode
  | [] => []
  | n :: rest => if n.id = e then new ++ n :: rest else n :: insertBeforeId e new rest

mutual

/-- All ids in a tree, including nested ones. -/
def idsOf : DNode → List Nat
  | .text i _ => [i]
  | .elem i _ _ ch => i :: idsOfList ch

/-- All ids in a child list, including nested ones. -/
def idsOfList : List DNode → List Nat
  | [] => []
  | n :: rest => idsOf n ++ idsOfList rest

end

mutual

/-- Remove every node with the given id inside one node's subtree. -/
def removeEverywhereNode (cid : Nat) : DNode → DNode
  | .elem i t a ch => .elem i t a (removeEverywhere cid ch)
  | t => t

/-- Remove every node with the given id from the whole tree (the implicit
"move out of the old parent" half of `endBefore.before(node)` when the
inserted node already lives somewhere in the tree). -/
def removeEverywhere (cid : Nat) : List DNode → List DNode
  | [] => []
  | n :: rest =>
    if n.id = cid then removeEverywhere cid rest
    else removeEverywhereNode cid n :: removeEverywhere cid rest

end

mutual

/-- Recurse the parent-list search of `onParentList` into one node. -/
def onParentNode (cid : Nat) (f : List DNode → List DNode) : DNode → DNode
  | DNode.elem i t a ch =>
    DNode.elem i t a
      (if ch.any (fun n => n.id = cid) then f ch else onParentChildren cid f ch)
  | n => n

/-- Recurse the parent-list search of `onParentList` into each child. -/
def onParentChildren (cid : Nat) (f : List DNode → List DNode) : List DNode → List DNode
  | [] => []
  | n :: rest => onParentNode cid f n :: onParentChildren cid f rest

end

/-- Apply `f` to the child list containing a node with id `cid` (the child
list of `cid`'s parent — the list all the sibling operations of the update
rule act on).  If no list contains `cid`, the tree is unchanged (all those
operations are no-ops on a detached node). -/
def onParentList (cid : Nat) (f : List DNode → List DNode) (ls : List DNode) : List DNode :=
  if ls.any fun n => n.id = cid then f ls
  else onParentChildren cid f ls

mutual

/-- Search one node's subtree for the child list containing id `cid`. -/
def findParentNode (cid : Nat) : DNode → Option (List DNode)
  | DNode.elem _ _ _ ch =>
    if ch.any (fun n => n.id = cid) then some ch else findParentChildren cid ch
  | _ => none

/-- Search each child's subtree for the child list containing id `cid`. -/
def findParentChildren (cid : Nat) : List DNode → Option (List DNode)
  | [] => none
  | n :: rest =>
    match findParentNode cid n with
    | some r => some r
    | none => findParentChildren cid rest

end

/-- Find the child list containing a node with id `cid` (read-only
counterpart of `onParentList`, used to compute the current region). -/
def findParentList (cid : Nat) (ls : List DNode) : Option (List DNode) :=
  if ls.any fun n => n.id = cid then some ls
  else findParentChildren cid ls

/-- `updateNodeSlot(document, slot, arg)` for an anchor whose `endBefore`
reference is an actual node `e` (the declared, non-null type).  `frag` is
the whole instance fragment; `fresh` allocates the text node a string
update may create.  Follows the source branch for branch:

* string: find the first text node in the freshly collected region,
  mutate its data in place, otherwise create one and insert it before the
  "after" boundary; then remove every other collected node;
* a node: insert it before the "after" boundary unless it is already one
  of the collected nodes (insertion moves it out of any old parent; a
  fragment argument is never a collected child and drains its children);
  then remove every other collected node;
* null / false: remove every collected node. -/
def updateNodeSlotT (frag : List DNode) (sa : Option Nat) (e : Nat)
    (arg : TemplateArgument) (fresh : Nat) : List DNode × Nat :=
  let l := (findParentList e frag).getD []
  let current := collectChildNodes sa e l
  match arg with
  | .str s =>
    match current.find? (·.isText) with
    | some tn =>
      (onParentList e (fun cs => removeIdsL ((topIds current).filter (· ≠ tn.id)) (setDataL tn.id s cs)) frag,
       fresh)
    | none =>
      (onParentList e (fun cs => removeIdsL (topIds current) (insertBeforeId e [DNode.text fresh s] cs)) frag,
       fresh + 1)
  | .node n =>
    if current.any (·.id = n.id) then
      (onParentList e (removeIdsL ((topIds current).filter (· ≠ n.id))) frag, fresh)
    else
      let f1 := removeEverywhere n.id frag
      let f2 := onParentList e (insertBeforeId e [n]) f1
      (onParentList e (removeIdsL ((topIds current).filter (· ≠ n.id))) f2, fresh)
  | .frag ns =>
    let f2 := onParentList e (insertBeforeId e ns) frag
    (onParentList e (removeIdsL (topIds current)) f2, fresh)
  | .nul => (onParentList e (removeIdsL (topIds current)) frag, fresh)
  | .fls => (onParentList e (removeIdsL (topIds current)) frag, fresh)

/-- Keep a child list up to and including the node with id `a` (removing
all later siblings): the effect of the null/false branch when `endBefore`
is null and `startAfter` is a real node, where `collectChildNodes` walks
forward to the end of the sibling list. -/
def keepThroughId (a : Nat) : List DNode → List DNode
  | [] => []
  | n :: rest => if n.id = a then [n] else n :: keepThroughId a rest

/-- `updateNodeSlot` on a resolved anchor.  When the anchor's `endBefore`
is null (possible only through the unsound resolution cast), the only
branch the source survives is a null/false value with a non-null
`startAfter` (where `collectChildNodes` walks to the end of the sibling
list and every collected node is removed); every other branch dereferences
the null `endBefore` and throws. -/
def updateNodeSlot (frag : List DNode) (slot : NodeSlot) (arg : TemplateArgument)
    (fresh : Nat) : Except (List Char) (List DNode × Nat) :=
  match slot.endBefore with
  | some e => .ok (updateNodeSlotT frag slot.startAfter e arg fresh)
  | none =>
    match slot.startAfter, arg with
    | some a, .nul => .ok (onParentList a (keepThroughId a) frag, fresh)
    | some a, .fls => .ok (onParentList a (keepThroughId a) frag, fresh)
    | _, _ => .error (String.toList "TypeError: endBefore is null")

/-- `element.setAttribute(name, value)`: update the named attribute in
place if present, else append it.  `removeAttribute` filters it out. -/
def setAttr (nm : String) (v : List Char) (a : List (String × List Char)) :
    List (String × List Char) :=
  if a.any (·.1 = nm) then a.map fun p => if p.1 = nm then (nm, v) else p
  else a ++ [(nm, v)]

/-- `element.removeAttribute(name)` on an attribute list. -/
def removeAttr (nm : String) (a : List (String × List Char)) : List (String × List Char) :=
  a.filter fun p => p.1 ≠ nm

mutual

/-- Set an attribute on the element with the given identity inside one
node's subtree. -/
def setAttrByIdNode (cid : Nat) (nm : String) (v : List Char) : DNode → DNode
  | DNode.elem i t a ch =>
    DNode.elem i t (if i = cid then setAttr nm v a else a) (setAttrById cid nm v ch)
  | n => n

/-- Set an attribute on every element with the given identity (node ids are
unique in any tree the library builds, so this is "the" slot element; a
detached or missing element leaves the tree unchanged, invisible to it). -/
def setAttrById (cid : Nat) (nm : String) (v : List Char) : List DNode → List DNode
  | [] => []
  | n :: rest => setAttrByIdNode cid nm v n :: setAttrById cid nm v rest

end

mutual

/-- Remove an attribute on the element with the given identity inside one
node's subtree. -/
def removeAttrByIdNode (cid : Nat) (nm : String) : DNode → DNode
  | DNode.elem i t a ch =>
    DNode.elem i t (if i = cid then removeAttr nm a else a) (removeAttrById cid nm ch)
  | n => n

/-- Remove an attribute on every element with the given identity. -/
def removeAttrById (cid : Nat) (nm : String) : List DNode → List DNode
  | [] => []
  | n :: rest => removeAttrByIdNode cid nm n :: removeAttrById cid nm rest

end

/-- The `console.warn` format string emitted for a non-string, non-absent
attribute value. -/
def attrWarnMsg : List Char :=
  String.toList "Cannot assign non-string value to attribute slot %O: %O"

/-- `updateAttrValueSlot(slot, arg)` on the instance tree, returning the
updated tree and the console warnings emitted: set the attribute for a
string, warn and remove it for a node (or fragment), remove it for
null/undefined/false. -/
def updateAttrValueSlot (frag : List DNode) (eid : Nat) (nm : String)
    (arg : TemplateArgument) : List DNode × List (List Char) :=
  match arg with
  | .str s => (setAttrById eid nm s frag, [])
  | .node _ => (removeAttrById eid nm frag, [attrWarnMsg])
  | .frag _ => (removeAttrById eid nm frag, [attrWarnMsg])
  | .nul => (removeAttrById eid nm frag, [])
  | .fls => (removeAttrById eid nm frag, [])

/-- `updateSlot(document, slot, arg)`: dispatch on the anchor kind.
Returns the new tree, the fresh-id counter and emitted warnings. -/
def updateSlot (frag : List DNode) (slot : TemplateInstanceSlot) (arg : TemplateArgument)
    (fresh : Nat) : Except (List Char) (List DNode × Nat × List (List Char)) :=
  match slot with
  | .node s => do
    let (f, fr) ← updateNodeSlot frag s arg fresh
    .ok (f, fr, [])
  | .attrValue s =>
    let (f, ws) := updateAttrValueSlot frag s.element s.name arg
    .ok (f, fresh, ws)

/-- The argument list as the second loop reads it: `args[i]` for
`i < template.slots.length`, where a missing argument is `undefined` and
takes the null branch of every update. -/
def padArgs (args : List TemplateArgument) (n : Nat) : List TemplateArgument :=
  (List.range n).map fun i => (args.get? i).getD .nul

/-- The second loop of `createTemplateInstance`: apply each value to its
anchor via the update rule, in slot order, threading the tree, the node
allocator and the warning log. -/
def applySlots (frag : List DNode) (fresh : Nat) (warns : List (List Char)) :
    List (TemplateInstanceSlot × TemplateArgument) →
    Except (List Char) (List DNode × Nat × List (List Char))
  | [] => .ok (frag, fresh, warns)
  | (s, a) :: rest => do
    let (f, fr, ws) ← updateSlot frag s a fresh
    applySlots f fr (warns ++ ws) rest

/-- The `node`-kind anchors among the resolved slots, in order (the source
accumulates these in a side list during the resolve loop). -/
def nodeSlotsOf (slots : List TemplateInstanceSlot) : List NodeSlot :=
  slots.filterMap fun s => match s with | .node a => some a | _ => none

/-- The `attr-value` anchors among the resolved slots, in order. -/
def attrValueSlotsOf (slots : List TemplateInstanceSlot) : List AttrValueSlot :=
  slots.filterMap fun s => match s with | .attrValue a => some a | _ => none

/-- `createTemplateInstance(document, template, args)`: clone the compiled
content, resolve every slot descriptor against the clone (first loop, no
mutation), then apply every argument to its anchor in slot order (second
loop).  Returns the instance and the console warnings emitted. -/
def createTemplateInstance (tpl : Template) (args : List TemplateArgument) (fresh : Nat) :
    Except (List Char) (TemplateInstance × List (List Char)) :=
  let (frag, f0) := relabelList fresh tpl.content
  match resolveSlots frag tpl.slots with
  | .error e => .error e
  | .ok slots =>
    match applySlots frag f0 [] (slots.zip (padArgs args tpl.slots.length)) with
    | .error e => .error e
    | .ok (frag1, _, warns) =>
      .ok ({ fragment := frag1, slots := slots,
             nodeSlots := nodeSlotsOf slots,
             attrValueSlots := attrValueSlotsOf slots }, warns)

/-!
## The address resolver (`paths.ts`)

The source's `pathToNode(root, target)` climbs from the target node to the
root via `parentNode`, counting `previousSibling`s at each level to build
the child-index path, and throws `Could not find target from root` when it
runs past a null parent first.  On a pure tree the parent chain of a node
is recovered by locating the node (by identity) under the root: the
resulting index path — one preceding-sibling count per level — is exactly
what the upward walk computes, and an unreachable target yields `none`.
-/

mutual

/-- `pathToNode(root, target)`: the child-index path from `root` to the
node with identity `tid`, or `none` when the target is not under the root
(the source throws there). -/
def pathToNode : DNode → Nat → Option (List Nat)
  | .text i _, tid => if i = tid then some [] else none
  | .elem i _ _ ch, tid => if i = tid then some [] else pathInList ch tid 0

/-- Scan a child list for the target, prepending the child index. -/
def pathInList : List DNode → Nat → Nat → Option (List Nat)
  | [], _, _ => none
  | c :: rest, tid, i =>
    match pathToNode c tid with
    | some p => some (i :: p)
    | none => pathInList rest tid (i + 1)

end

/-- `nodeFromPath(root, path)`: walk downward indexing into `childNodes`
by each path element; an out-of-range index leaves the source with
`undefined` (whose next use throws), modelled as `none`. -/
def nodeFromPath (n : DNode) : List Nat → Option DNode
  | [] => some n
  | i :: rest =>
    match n.children.get? i with
    | some c => nodeFromPath c rest
    | none => none

/-!
## Observation helpers (spec-level read-only queries used in theorems)
-/

/-- Look up an attribute value by name (`element.getAttribute(name)`). -/
def lookupAttr (nm : String) (a : List (String × List Char)) : Option (List Char) :=
  (a.find? fun p => p.1 = nm).map (·.2)

mutual

/-- Read the named attribute of the node with identity `cid` inside one
node's subtree. -/
def getAttrByIdNode (cid : Nat) (nm : String) : DNode → Option (Option (List Char))
  | DNode.elem i _ a ch =>
    if i = cid then some (lookupAttr nm a) else getAttrByIdChildren cid nm ch
  | _ => none

/-- Read the named attribute of the first node with identity `cid` in a
child forest (depth-first document order); the outer `Option` is whether
the element was found, the inner whether it has the attribute. -/
def getAttrByIdChildren (cid : Nat) (nm : String) : List DNode → Option (Option (List Char))
  | [] => none
  | n :: rest =>
    match getAttrByIdNode cid nm n with
    | some v => some v
    | none => getAttrByIdChildren cid nm rest

end

/-- Read the named attribute of the first node with identity `cid`
(depth-first document order). -/
def getAttrById (cid : Nat) (nm : String) (ls : List DNode) : Option (List Char) :=
  (getAttrByIdChildren cid nm ls).getD none

mutual

/-- Erase the single attribute `nm` from every element with identity
`cid` (used to state frame properties: two trees equal after this erasure
differ at most in that one attribute of that one element). -/
def stripAttr (cid : Nat) (nm : String) : DNode → DNode
  | .elem i t a ch =>
    .elem i t (if i = cid then removeAttr nm a else a) (stripAttrList cid nm ch)
  | n => n

/-- `stripAttr` over a child list. -/
def stripAttrList (cid : Nat) (nm : String) : List DNode → List DNode
  | [] => []
  | n :: rest => stripAttr cid nm n :: stripAttrList cid nm rest

end

mutual

/-- Erase every id in a tree (the pure structure cloning preserves). -/
def stripIds : DNode → DNode
  | .text _ d => .text 0 d
  | .elem _ t a ch => .elem 0 t a (stripIdsList ch)

/-- `stripIds` over a child list. -/
def stripIdsList : List DNode → List DNode
  | [] => []
  | n :: rest => stripIds n :: stripIdsList rest

end

/-!
## Shape predicates for compiled slot paths

`resolvableWithNext ns path` says the path addresses a node in the child
forest `ns` *and* that node has a following sibling (so resolution of a
`node`-kind anchor finds a non-null `endBefore`); `resolvableAt` only
requires the addressed node to exist.  Both demand a non-empty path, as
the compiler only emits paths ending in a child index.
-/

/-- The path addresses an existing node that has a next sibling. -/
def resolvableWithNext : List DNode → List Nat → Prop
  | _, [] => False
  | ns, [j] => (ns.get? j).isSome ∧ (ns.get? (j + 1)).isSome
  | ns, j :: rest => ∃ n, ns.get? j = some n ∧ resolvableWithNext n.children rest

/-- The (non-empty) path addresses an existing node. -/
def resolvableAt : List DNode → List Nat → Prop
  | _, [] => False
  | ns, [j] => (ns.get? j).isSome
  | ns, j :: rest => ∃ n, ns.get? j = some n ∧ resolvableAt n.children rest

/-- What the compiler's walk guarantees for a slot it emitted, relative to
the walked child list `ns`, the parent path `p` and the starting index
`i`: the slot's path extends `p` by a local index, a marker text node
slot's address has a following sibling, an attribute slot's an existing
node. -/
def slotOk (ns : List DNode) (p : List Nat) (i : Nat) : TemplateSlot → Prop
  | .node path => ∃ j tail, path = p ++ (i + j) :: tail ∧ resolvableWithNext ns (j :: tail)
  | .attrValue path _ => ∃ j tail, path = p ++ (i + j) :: tail ∧ resolvableAt ns (j :: tail)

/-- A resolved slot whose `node`-kind anchor has a present (non-null)
"after" boundary. -/
def anchorEndPresent : TemplateInstanceSlot → Prop
  | .node s => s.endBefore.isSome
  | .attrValue _ => True

/-!
## Region contexts

The update-rule theorems quantify over a sibling list laid out as
`A ++ [startAfter] ++ mid ++ endBefore :: B` (or `mid ++ endBefore :: B`
when the slot's region starts at the very beginning of its parent): `mid`
is the region's current content.
-/

/-- A sibling list with a region `mid` between the two boundaries. -/
def regionCtx (A : List DNode) (sa : Option DNode) (mid : List DNode) (e : DNode)
    (B : List DNode) : List DNode :=
  (match sa with | some a => A ++ [a] | none => []) ++ mid ++ e :: B

/-!
## Concrete demonstration inputs

The host parser is an external collaborator; for the end-to-end scenarios
its output on the concrete joined text is supplied directly (standard HTML
parsing of, e.g., `<p>⚡</p>`).
-/

/-- Literal fragments of end-to-end scenario 1. -/
def demoStrings : List (List Char) := [String.toList "<p>", String.toList "</p>"]

/-- The host parse of `<p>⚡</p>`: one paragraph with one text child. -/
def demoContent : List DNode := [DNode.elem 0 "p" [] [DNode.text 1 [replacement]]]

/-- The compiled template for scenario 1 (as `createTemplate` produces it:
the marker isolated in its own text node, followed by the empty remainder
text node from the unconditional split). -/
def demoTpl : Template :=
  { content := [DNode.elem 0 "p" [] [DNode.text 1 [replacement], DNode.text 10 []]],
    slots := [TemplateSlot.node [0, 0]] }

/-- The fragment of the instance built in scenario 1. -/
def c1Fragment : List DNode :=
  match createTemplateInstance demoTpl [TemplateArgument.str (String.toList "hello")] 20 with
  | .ok (inst, _) => inst.fragment
  | .error _ => []

/-- Literal fragments of the attribute scenario (`<div class="…">`). -/
def attrStrings : List (List Char) := [String.toList "<div class=\"", String.toList "\">"]

/-- The host parse of `<div class="⚡">`. -/
def attrContent : List DNode := [DNode.elem 0 "div" [("class", [replacement])] []]

/-- The compiled template for the attribute scenario. -/
def attrTpl : Template :=
  { content := [DNode.elem 0 "div" [("class", [replacement])] []],
    slots := [TemplateSlot.attrValue [0] "class"] }

/-!
# Theorems

First the claim-independent helper lemmas, then one theorem per claim
(with a witness where the theorem carries hypotheses).
-/

/-- Scanning a child list for a target id yields a path starting with the
child index (offset by the running counter) of a child that contains the
target. -/
theorem pathInList_split (cs : List DNode) (tid : Nat) :
    ∀ i q, pathInList cs tid i = some q →
      ∃ j p c, q = (i + j) :: p ∧ cs.get? j = some c ∧ pathToNode c tid = some p := by
  induction cs with
  | nil => intro i q h; simp [pathInList] at h
  | cons c rest ih =>
    intro i q h
    rw [pathInList] at h
    cases hc : pathToNode c tid with
    | some p =>
      rw [hc] at h
      refine ⟨0, p, c, ?_, rfl, hc⟩
      simpa using h.symm
    | none =>
      rw [hc] at h
      obtain ⟨j, p, c', hq, hg, hp⟩ := ih (i + 1) q h
      refine ⟨j + 1, p, c', ?_, by simpa using hg, hp⟩
      rw [hq]
      have harith : i + 1 + j = i + (j + 1) := by omega
      rw [harith]

mutual

/-- Resolving the path computed for a target id yields a node with that
id (soundness of the upward walk against the downward resolver). -/
theorem pathToNode_resolves : ∀ (n : DNode) (tid : Nat) (p : List Nat),
    pathToNode n tid = some p → ∃ m, nodeFromPath n p = some m ∧ m.id = tid
  | .text i d, tid, p, h => by
    rw [pathToNode] at h
    by_cases hid : i = tid
    · rw [if_pos hid] at h
      injection h with h
      exact ⟨DNode.text i d, by rw [← h, nodeFromPath], hid⟩
    · rw [if_neg hid] at h
      simp at h
  | .elem i t a ch, tid, p, h => by
    rw [pathToNode] at h
    by_cases hid : i = tid
    · rw [if_pos hid] at h
      injection h with h
      exact ⟨DNode.elem i t a ch, by rw [← h, nodeFromPath], hid⟩
    · rw [if_neg hid] at h
      obtain ⟨j, p', c, hq, hg, hp⟩ := pathInList_split ch tid 0 p h
      have hsz : sizeOf c < sizeOf ch := List.sizeOf_lt_of_mem (List.get?_mem hg)
      obtain ⟨m, hm, hmid⟩ := pathToNode_resolves c tid p' hp
      exact ⟨m, by rw [hq]; simp only [Nat.zero_add, nodeFromPath, DNode.children, hg, hm], hmid⟩
termination_by n tid p h => (sizeOf n, 1)
decreasing_by
  simp_wf
  omega

/-- A target id occurring anywhere under a node is found by `pathToNode`. -/
theorem pathToNode_total : ∀ (n : DNode) (tid : Nat), tid ∈ idsOf n → (pathToNode n tid).isSome
  | .text i d, tid, h => by
    rw [pathToNode]
    by_cases hid : i = tid
    · rw [if_pos hid]; rfl
    · rw [idsOf] at h
      simp only [List.mem_singleton] at h
      exact absurd h.symm hid
  | .elem i t a ch, tid, h => by
    rw [pathToNode]
    by_cases hid : i = tid
    · rw [if_pos hid]; rfl
    · rw [if_neg hid]
      rw [idsOf] at h
      rcases List.mem_cons.mp h with h1 | h2
      · exact absurd h1.symm hid
      · exact pathInList_total ch tid 0 h2
termination_by n tid h => (sizeOf n, 1)
decreasing_by
  simp_wf
  omega

/-- A target id occurring anywhere in a child list is found by the scan. -/
theorem pathInList_total : ∀ (cs : List DNode) (tid : Nat) (i : Nat),
    tid ∈ idsOfList cs → (pathInList cs tid i).isSome
  | [], tid, i, h => by rw [idsOfList] at h; simp at h
  | c :: rest, tid, i, h => by
    rw [idsOfList] at h
    rw [pathInList]
    cases hc : pathToNode c tid with
    | some p => rfl
    | none =>
      rcases List.mem_append.mp h with h1 | h2
      · have := pathToNode_total c tid h1
        rw [hc] at this
        simp at this
      · exact pathInList_total rest tid (i + 1) h2
termination_by cs tid i h => (sizeOf cs, 0)
decreasing_by
  all_goals simp_wf
  all_goals omega

end

/-- Claim C8: for every tree root and every node (identified by its id,
the embedding of object identity) that is the root itself or one of its
descendants, resolving the path computed by the address-of operation
yields a node with the target's identity:
`nodeFromPath root (pathToNode root target)` is the target again. -/
theorem c8_path_roundtrip (root : DNode) (tid : Nat) (h : tid ∈ idsOf root) :
    ∃ p m, pathToNode root tid = some p ∧ nodeFromPath root p = some m ∧ m.id = tid := by
  have hs := pathToNode_total root tid h
  cases hp : pathToNode root tid with
  | none => rw [hp] at hs; simp at hs
  | some p =>
    obtain ⟨m, hm, hmid⟩ := pathToNode_resolves root tid p hp
    exact ⟨p, m, rfl, hm, hmid⟩

/-- Witness for C8 at a concrete tree: the target `3` is the text node
nested two levels down; its computed path resolves back to it. -/
theorem c8_path_roundtrip_witness :
    ∃ p m,
      pathToNode (DNode.elem 0 "div" [] [DNode.text 1 [], DNode.elem 2 "b" [] [DNode.text 3 (String.toList "x")]]) 3 = some p ∧
      nodeFromPath (DNode.elem 0 "div" [] [DNode.text 1 [], DNode.elem 2 "b" [] [DNode.text 3 (String.toList "x")]]) p = some m ∧
      m.id = 3 :=
  c8_path_roundtrip _ 3 (by decide)

/-- Claim C1 (as stated) is false on the code: for fragments
`["<p>", "</p>"]` with interpolation `["hello"]`, the paragraph in the
returned instance does *not* have a text node as its sole child — no
assignment of node identities makes the fragment a paragraph with exactly
one child.  The compiler's unconditional `splitText(dataIndex + 1)` leaves
an empty remainder text node after the marker, so the paragraph has two
children. -/
theorem c1_sole_child_counterexample :
    ¬ ∃ pid tid, c1Fragment =
      [DNode.elem pid "p" [] [DNode.text tid (String.toList "hello")]] := by
  intro ⟨pid, tid, h⟩
  have h2 : c1Fragment =
      [DNode.elem 20 "p" [] [DNode.text 21 (String.toList "hello"), DNode.text 22 []]] := rfl
  rw [h2] at h
  simp at h

/-- Claim C1 amended: for fragments `["<p>", "</p>"]` with interpolation
`["hello"]`, the instance root contains one paragraph element whose first
child is a text node with data `"hello"`; the paragraph's only other child
is a single empty text node (the slot's "after" boundary left by the
compiler's unconditional split), so it has exactly two child nodes. -/
theorem c1_amended_instance_shape :
    createTemplate demoStrings demoContent 10 = .ok demoTpl ∧
    createTemplateInstance demoTpl [TemplateArgument.str (String.toList "hello")] 20 =
      .ok ({ fragment :=
               [DNode.elem 20 "p" []
                 [DNode.text 21 (String.toList "hello"), DNode.text 22 []]],
             slots := [.node ⟨none, some 22⟩],
             nodeSlots := [⟨none, some 22⟩],
             attrValueSlots := [] }, []) :=
  ⟨rfl, rfl⟩

/-- Claim C2: compilation fails with the construction error naming the
joined template text exactly when the walk discovers a slot count
different from `strings.length - 1` (the JS number, hence the `Int`
comparison), in which case no compiled template is produced; otherwise it
returns a template with exactly that many slots (the discovered ones). -/
theorem c2_slot_count_check (strings : List (List Char)) (content : List DNode) (fresh : Nat) :
    (((discoveredSlots content fresh).length : Int) ≠ (strings.length : Int) - 1 →
      createTemplate strings content fresh = .error (slotCountErr strings) ∧
      joinMarker strings <:+ slotCountErr strings) ∧
    (((discoveredSlots content fresh).length : Int) = (strings.length : Int) - 1 →
      ∃ tpl, createTemplate strings content fresh = .ok tpl ∧
        tpl.slots = discoveredSlots content fresh ∧
        ((tpl.slots.length : Int) = (strings.length : Int) - 1)) := by
  rcases hw : walkChildren fresh [] 0 content with ⟨ns, slots, f⟩
  have hds : discoveredSlots content fresh = slots := by
    rw [discoveredSlots, hw]
  constructor
  · intro hne
    constructor
    · rw [createTemplate, hw]
      simp only
      rw [if_pos (by rw [hds] at hne; exact hne)]
    · exact ⟨String.toList "Could not find all replacements in template: ", rfl⟩
  · intro heq
    refine ⟨{ content := ns, slots := slots }, ?_, hds.symm, ?_⟩
    · rw [createTemplate, hw]
      simp only
      rw [if_neg (by rw [hds] at heq; simp [heq])]
    · rw [← hds] at *
      exact heq

/-- Witness for C2: two fragments but a marker-free parse discovers 0 ≠ 1
slots, so compilation fails with the message naming the joined text. -/
theorem c2_slot_count_check_witness :
    createTemplate [String.toList "a", String.toList "b"] [DNode.text 0 (String.toList "x")] 0
        = .error (slotCountErr [String.toList "a", String.toList "b"]) ∧
    joinMarker [String.toList "a", String.toList "b"]
        <:+ slotCountErr [String.toList "a", String.toList "b"] :=
  (c2_slot_count_check [String.toList "a", String.toList "b"]
    [DNode.text 0 (String.toList "x")] 0).1 (by decide)

/-- Claim C3: a successful instantiation is exactly "resolve all
addresses against the pristine clone, then apply the values in slot
order": the returned anchors are those `resolveSlots` computes on the
freshly imported clone (a read-only pass, before any update-rule
mutation, and independent of the argument list), and the returned
fragment is the result of folding the update rule over the resolved
anchors paired with the arguments, in slot order. -/
theorem c3_resolve_before_apply (tpl : Template) (args : List TemplateArgument)
    (fresh : Nat) (inst : TemplateInstance) (ws : List (List Char))
    (h : createTemplateInstance tpl args fresh = .ok (inst, ws)) :
    ∃ rs res,
      resolveSlots (relabelList fresh tpl.content).1 tpl.slots = .ok rs ∧
      inst.slots = rs ∧
      applySlots (relabelList fresh tpl.content).1 (relabelList fresh tpl.content).2 []
          (rs.zip (padArgs args tpl.slots.length)) = .ok res ∧
      inst.fragment = res.1 ∧ ws = res.2.2 := by
  rw [createTemplateInstance] at h
  rcases hrel : relabelList fresh tpl.content with ⟨frag, f0⟩
  rw [hrel] at h
  simp only [] at h
  rcases hr : resolveSlots frag tpl.slots with e | rs
  · rw [hr] at h; simp at h
  · rw [hr] at h
    simp only [] at h
    rcases ha : applySlots frag f0 [] (rs.zip (padArgs args tpl.slots.length)) with e | res
    · rw [ha] at h; simp at h
    · rcases res with ⟨frag1, f1, warns⟩
      rw [ha] at h
      simp only [Except.ok.injEq, Prod.mk.injEq] at h
      obtain ⟨hinst, hws⟩ := h
      refine ⟨rs, (frag1, f1, warns), rfl, ?_, ha, ?_, ?_⟩
      · rw [← hinst]
      · rw [← hinst]
      · rw [hws]

/-- Witness for C3 at a concrete instantiation of the paragraph template. -/
theorem c3_resolve_before_apply_witness :
    ∃ rs res,
      resolveSlots (relabelList 20 demoTpl.content).1 demoTpl.slots = .ok rs ∧
      [TemplateInstanceSlot.node ⟨none, some 22⟩] = rs ∧
      applySlots (relabelList 20 demoTpl.content).1 (relabelList 20 demoTpl.content).2 []
          (rs.zip (padArgs [TemplateArgument.str (String.toList "hi")] demoTpl.slots.length))
          = .ok res ∧
      [DNode.elem 20 "p" [] [DNode.text 21 (String.toList "hi"), DNode.text 22 []]] = res.1 ∧
      ([] : List (List Char)) = res.2.2 :=
  c3_resolve_before_apply demoTpl [TemplateArgument.str (String.toList "hi")] 20
    { fragment := [DNode.elem 20 "p" [] [DNode.text 21 (String.toList "hi"), DNode.text 22 []]],
      slots := [TemplateInstanceSlot.node ⟨none, some 22⟩],
      nodeSlots := [⟨none, some 22⟩],
      attrValueSlots := [] } [] rfl

/-- Removing an attribute makes it unreadable. -/
theorem lookupAttr_removeAttr (nm : String) (a : List (String × List Char)) :
    lookupAttr nm (removeAttr nm a) = none := by
  rw [lookupAttr, Option.map_eq_none']
  rw [List.find?_eq_none]
  intro x hx
  have hmem := List.of_mem_filter hx
  simp only [ne_eq, decide_not, Bool.not_eq_true', decide_eq_false_iff_not] at hmem
  simpa using hmem

mutual

/-- After `removeAttrByIdNode`, reading the attribute inside the subtree
finds either no owner or no value. -/
theorem getAttrRemove_node (cid : Nat) (nm : String) (n : DNode) :
    getAttrByIdNode cid nm (removeAttrByIdNode cid nm n) = none ∨
    getAttrByIdNode cid nm (removeAttrByIdNode cid nm n) = some none := by
  cases n with
  | text i d => exact Or.inl rfl
  | elem i t a ch =>
    rw [removeAttrByIdNode, getAttrByIdNode]
    by_cases hi : i = cid
    · rw [if_pos hi, if_pos hi, lookupAttr_removeAttr]
      exact Or.inr rfl
    · rw [if_neg hi]
      exact getAttrRemove_children cid nm ch

/-- After `removeAttrById`, reading the attribute in the child forest
finds either no owner or no value. -/
theorem getAttrRemove_children (cid : Nat) (nm : String) (ls : List DNode) :
    getAttrByIdChildren cid nm (removeAttrById cid nm ls) = none ∨
    getAttrByIdChildren cid nm (removeAttrById cid nm ls) = some none := by
  cases ls with
  | nil => exact Or.inl rfl
  | cons n rest =>
    rw [removeAttrById, getAttrByIdChildren]
    rcases getAttrRemove_node cid nm n with h | h
    · rw [h]
      exact getAttrRemove_children cid nm rest
    · rw [h]
      exact Or.inr rfl

end

/-- `removeAttribute` after `removeAttrById` leaves the attribute absent. -/
theorem getAttrById_removeAttrById (cid : Nat) (nm : String) (ls : List DNode) :
    getAttrById cid nm (removeAttrById cid nm ls) = none := by
  rcases getAttrRemove_children cid nm ls with h | h <;> rw [getAttrById, h] <;> rfl

/-- Claim C9: a node supplied to an attribute-value slot is recovered
locally — the update emits exactly the `console.warn` message and removes
the attribute (it is unreadable afterwards), and no error is raised, so an
instantiation containing such an argument still completes and returns its
instance (shown at the `<div class="⚡">` template with a node argument:
the result is `.ok`, the class attribute is gone and the warning was
logged). -/
theorem c9_attr_invalid_value_recovered :
    (∀ (frag : List DNode) (eid : Nat) (nm : String) (n : DNode),
      updateAttrValueSlot frag eid nm (.node n) = (removeAttrById eid nm frag, [attrWarnMsg]) ∧
      getAttrById eid nm (updateAttrValueSlot frag eid nm (.node n)).1 = none) ∧
    createTemplateInstance attrTpl [.node (DNode.text 100 (String.toList "x"))] 50 =
      .ok ({ fragment := [DNode.elem 50 "div" [] []],
             slots := [.attrValue ⟨50, "class"⟩],
             nodeSlots := [],
             attrValueSlots := [⟨50, "class"⟩] }, [attrWarnMsg]) := by
  constructor
  · intro frag eid nm n
    exact ⟨rfl, getAttrById_removeAttrById eid nm frag⟩
  · rfl

/-- Writing a value under a key and then erasing that key equals just
erasing it, for the in-place-update half of `setAttr`. -/
theorem removeAttr_mapSet (nm : String) (v : List Char) (a : List (String × List Char)) :
    removeAttr nm (a.map fun p => if p.1 = nm then (nm, v) else p) = removeAttr nm a := by
  induction a with
  | nil => rfl
  | cons p rest ih =>
    rw [List.map_cons, removeAttr, List.filter_cons, removeAttr, List.filter_cons]
    rw [removeAttr, removeAttr] at ih
    by_cases hp : p.1 = nm
    · rw [if_pos hp, if_neg (by simp), if_neg (by simp [hp])]
      exact ih
    · rw [if_neg hp, if_pos (by simp [hp]), if_pos (by simp [hp]), ih]

/-- Setting then erasing the attribute equals just erasing it. -/
theorem removeAttr_setAttr (nm : String) (v : List Char) (a : List (String × List Char)) :
    removeAttr nm (setAttr nm v a) = removeAttr nm a := by
  rw [setAttr]
  by_cases hs : a.any (·.1 = nm)
  · rw [if_pos hs]
    exact removeAttr_mapSet nm v a
  · rw [if_neg hs, removeAttr, removeAttr, List.filter_append]
    simp

/-- Erasing twice equals erasing once. -/
theorem removeAttr_removeAttr (nm : String) (a : List (String × List Char)) :
    removeAttr nm (removeAttr nm a) = removeAttr nm a := by
  rw [removeAttr, removeAttr, List.filter_filter]
  simp

mutual

/-- `setAttrByIdNode` changes nothing once the written attribute is
erased. -/
theorem stripAttr_setAttrByIdNode (cid : Nat) (nm : String) (v : List Char) (n : DNode) :
    stripAttr cid nm (setAttrByIdNode cid nm v n) = stripAttr cid nm n := by
  cases n with
  | text i d => rfl
  | elem i t a ch =>
    rw [setAttrByIdNode, stripAttr, stripAttr]
    by_cases hi : i = cid
    · simp only [if_pos hi, removeAttr_setAttr, stripAttrList_setAttrById cid nm v ch]
    · simp only [if_neg hi, stripAttrList_setAttrById cid nm v ch]

/-- `setAttrById` changes nothing once the written attribute is erased. -/
theorem stripAttrList_setAttrById (cid : Nat) (nm : String) (v : List Char) (ls : List DNode) :
    stripAttrList cid nm (setAttrById cid nm v ls) = stripAttrList cid nm ls := by
  cases ls with
  | nil => rfl
  | cons n rest =>
    rw [setAttrById, stripAttrList, stripAttrList,
      stripAttr_setAttrByIdNode cid nm v n, stripAttrList_setAttrById cid nm v rest]

end

mutual

/-- `removeAttrByIdNode` changes nothing once the erased attribute is
erased. -/
theorem stripAttr_removeAttrByIdNode (cid : Nat) (nm : String) (n : DNode) :
    stripAttr cid nm (removeAttrByIdNode cid nm n) = stripAttr cid nm n := by
  cases n with
  | text i d => rfl
  | elem i t a ch =>
    rw [removeAttrByIdNode, stripAttr, stripAttr]
    by_cases hi : i = cid
    · simp only [if_pos hi, removeAttr_removeAttr, stripAttrList_removeAttrById cid nm ch]
    · simp only [if_neg hi, stripAttrList_removeAttrById cid nm ch]

/-- `removeAttrById` changes nothing once the erased attribute is erased. -/
theorem stripAttrList_removeAttrById (cid : Nat) (nm : String) (ls : List DNode) :
    stripAttrList cid nm (removeAttrById cid nm ls) = stripAttrList cid nm ls := by
  cases ls with
  | nil => rfl
  | cons n rest =>
    rw [removeAttrById, stripAttrList, stripAttrList,
      stripAttr_removeAttrByIdNode cid nm n, stripAttrList_removeAttrById cid nm rest]

end

/-- Claim C10: updating an attribute-value slot with any argument changes
at most the single named attribute of the slot's element: after erasing
just that one attribute of that one element from both trees, the updated
tree and the original tree are identical — so the element's children, its
siblings, its other attributes and every other node are untouched. -/
theorem c10_attr_update_frame (frag : List DNode) (eid : Nat) (nm : String)
    (arg : TemplateArgument) :
    stripAttrList eid nm (updateAttrValueSlot frag eid nm arg).1 = stripAttrList eid nm frag := by
  cases arg with
  | str s => exact stripAttrList_setAttrById eid nm s frag
  | node n => exact stripAttrList_removeAttrById eid nm frag
  | frag ns => exact stripAttrList_removeAttrById eid nm frag
  | nul => exact stripAttrList_removeAttrById eid nm frag
  | fls => exact stripAttrList_removeAttrById eid nm frag

/-!
## Region lemmas for the update rule

These work at the sibling list of the anchor's parent, laid out as a
`regionCtx`.
-/

/-- `topIds` distributes over append. -/
theorem topIds_append (l1 l2 : List DNode) : topIds (l1 ++ l2) = topIds l1 ++ topIds l2 :=
  List.map_append _ _ _

/-- `topIds` on a cons. -/
theorem topIds_cons (n : DNode) (l : List DNode) : topIds (n :: l) = n.id :: topIds l := rfl

/-- An id present at the top level makes `findParentList` return the whole
list. -/
theorem findParentList_top (cid : Nat) (ls : List DNode) (h : cid ∈ topIds ls) :
    findParentList cid ls = some ls := by
  rw [findParentList, if_pos]
  rw [List.any_eq_true]
  obtain ⟨n, hn, hid⟩ := List.mem_map.mp h
  exact ⟨n, hn, by simp [hid]⟩

/-- An id present at the top level makes `onParentList` apply `f` there. -/
theorem onParentList_top (cid : Nat) (f : List DNode → List DNode) (ls : List DNode)
    (h : cid ∈ topIds ls) : onParentList cid f ls = f ls := by
  rw [onParentList, if_pos]
  rw [List.any_eq_true]
  obtain ⟨n, hn, hid⟩ := List.mem_map.mp h
  exact ⟨n, hn, by simp [hid]⟩

/-- The forward walk skips everything up to and including `startAfter`. -/
theorem dropThroughId_skip (a : DNode) (A rest : List DNode) (h : a.id ∉ topIds A) :
    dropThroughId a.id (A ++ a :: rest) = rest := by
  induction A with
  | nil => simp [dropThroughId]
  | cons x xs ih =>
    rw [List.cons_append, dropThroughId, if_neg, ih (by simp [topIds] at h ⊢; tauto)]
    intro hx
    exact h (by simp [topIds, hx])

/-- The walk away from the "after" boundary collects exactly the region. -/
theorem takeWhileId_until (e : DNode) (mid B : List DNode) (h : e.id ∉ topIds mid) :
    (mid ++ e :: B).takeWhile (fun n => n.id ≠ e.id) = mid := by
  induction mid with
  | nil => simp [List.takeWhile_cons]
  | cons x xs ih =>
    rw [List.cons_append, List.takeWhile_cons, if_pos, ih (by simp [topIds] at h ⊢; tauto)]
    have : x.id ≠ e.id := by
      intro hx
      exact h (by simp [topIds, hx])
    simp [this]

/-- An element appearing in the middle of a duplicate-free list appears on
neither side of itself. -/
theorem not_mem_of_nodup_middle {α : Type} {l1 l2 : List α} {x : α}
    (h : (l1 ++ x :: l2).Nodup) : x ∉ l1 ∧ x ∉ l2 := by
  rw [List.nodup_middle] at h
  rcases List.nodup_cons.mp h with ⟨hx, -⟩
  rw [List.mem_append] at hx
  constructor <;> intro hm <;> exact hx (by tauto)

/-- Flat span of the ids of a region context. -/
theorem topIds_regionCtx_some (A mid B : List DNode) (a e : DNode) :
    topIds (regionCtx A (some a) mid e B) =
      topIds A ++ a.id :: (topIds mid ++ e.id :: topIds B) := by
  simp [regionCtx, topIds_append, topIds_cons, topIds]

/-- Flat span of the ids of a region context with no "before" boundary. -/
theorem topIds_regionCtx_none (mid B : List DNode) (e : DNode) :
    topIds (regionCtx [] none mid e B) = topIds mid ++ e.id :: topIds B := by
  simp [regionCtx, topIds_append, topIds_cons, topIds]

/-- `collectChildNodes` on a well-formed region context returns exactly
the region content. -/
theorem collect_regionCtx (A mid B : List DNode) (sa : Option DNode) (e : DNode)
    (hnd : (topIds (regionCtx A sa mid e B)).Nodup) :
    collectChildNodes (sa.map DNode.id) e.id (regionCtx A sa mid e B) = mid := by
  cases sa with
  | none =>
    have hmid : e.id ∉ topIds mid := by
      rw [regionCtx] at hnd
      simp only [List.nil_append, topIds_append, topIds_cons] at hnd
      exact (not_mem_of_nodup_middle hnd).1
    show (regionCtx [] none mid e B).takeWhile (fun n => n.id ≠ e.id) = mid
    rw [show regionCtx [] none mid e B = mid ++ e :: B by simp [regionCtx]]
    exact takeWhileId_until e mid B hmid
  | some a =>
    have hflat : (topIds A ++ a.id :: (topIds mid ++ e.id :: topIds B)).Nodup := by
      rw [← topIds_regionCtx_some]
      exact hnd
    have hA : a.id ∉ topIds A := (not_mem_of_nodup_middle hflat).1
    have hmid : e.id ∉ topIds mid := by
      have h2 := (not_mem_of_nodup_middle hflat).2
      have h3 : (topIds mid ++ e.id :: topIds B).Nodup := by
        rw [List.nodup_middle] at hflat
        rcases List.nodup_cons.mp hflat with ⟨-, h4⟩
        exact (List.nodup_append.mp h4).2.1
      exact (not_mem_of_nodup_middle h3).1
    show (dropThroughId a.id (regionCtx A (some a) mid e B)).takeWhile
        (fun n => n.id ≠ e.id) = mid
    rw [show regionCtx A (some a) mid e B = A ++ a :: (mid ++ e :: B) by simp [regionCtx]]
    rw [dropThroughId_skip a A _ hA]
    exact takeWhileId_until e mid B hmid

/-- Decompose duplicate-freeness of a three-part list. -/
theorem nodup_parts {α : Type} {P m Q : List α} (h : (P ++ m ++ Q).Nodup) :
    P.Nodup ∧ m.Nodup ∧ Q.Nodup ∧ (∀ x ∈ m, x ∉ P ∧ x ∉ Q) ∧ (∀ x ∈ P, x ∉ Q) := by
  rw [List.append_assoc, List.nodup_append] at h
  obtain ⟨hP, hmQ, hdisj⟩ := h
  rw [List.nodup_append] at hmQ
  obtain ⟨hm, hQ, hmq⟩ := hmQ
  exact ⟨hP, hm, hQ,
    fun x hx => ⟨fun hxP => hdisj hxP (List.mem_append.mpr (Or.inl hx)),
                 fun hxQ => hmq hx hxQ⟩,
    fun x hxP hxQ => hdisj hxP (List.mem_append.mpr (Or.inr hxQ))⟩

/-- Rebuild duplicate-freeness after replacing the middle part by elements
each either drawn from the old middle or globally new. -/
theorem nodup_replace_middle {α : Type} {P Q m m' : List α}
    (hnd : (P ++ m ++ Q).Nodup) (hm' : m'.Nodup)
    (hsub : ∀ x ∈ m', x ∈ m ∨ (x ∉ P ∧ x ∉ Q)) :
    (P ++ m' ++ Q).Nodup := by
  obtain ⟨hP, hm, hQ, hmPQ, hPQ⟩ := nodup_parts hnd
  rw [List.append_assoc, List.nodup_append]
  refine ⟨hP, ?_, ?_⟩
  · rw [List.nodup_append]
    refine ⟨hm', hQ, ?_⟩
    intro x hx hxQ
    rcases hsub x hx with h | h
    · exact (hmPQ x h).2 hxQ
    · exact h.2 hxQ
  · intro x hxP hx
    rw [List.mem_append] at hx
    rcases hx with hx | hx
    · rcases hsub x hx with h | h
      · exact (hmPQ x h).1 hxP
      · exact h.1 hxP
    · exact hPQ x hxP hx

/-- `setDataL` keeps every node's identity. -/
theorem id_setDataL_node (tid : Nat) (s : List Char) (x : DNode) :
    (match x with
      | DNode.text id _ => if id = tid then DNode.text id s else x
      | _ => x).id = x.id := by
  cases x with
  | text i d =>
    by_cases hi : i = tid
    · simp [hi, DNode.id]
    · simp [hi]
  | elem i t a ch => rfl

/-- `setDataL` leaves a list alone when the target id is absent. -/
theorem setDataL_not_mem (tid : Nat) (s : List Char) (l : List DNode)
    (h : tid ∉ topIds l) : setDataL tid s l = l := by
  induction l with
  | nil => rfl
  | cons x rest ih =>
    rw [setDataL, List.map_cons]
    rw [topIds_cons] at h
    have hx : x.id ≠ tid := fun hh => h (by simp [hh])
    have hrest := ih fun hh => h (by simp [hh])
    rw [setDataL] at hrest
    rw [hrest]
    congr 1
    cases x with
    | text i d =>
      show (if i = tid then DNode.text i s else DNode.text i d) = DNode.text i d
      rw [if_neg (by simpa [DNode.id] using hx)]
    | elem i t a ch => rfl

/-- `setDataL` splits over the three-part layout when the target id lives
only in the middle. -/
theorem setDataL_frame (P Q mid : List DNode) (tid : Nat) (s : List Char)
    (hP : tid ∉ topIds P) (hQ : tid ∉ topIds Q) :
    setDataL tid s (P ++ mid ++ Q) = P ++ setDataL tid s mid ++ Q := by
  rw [setDataL, List.map_append, List.map_append]
  rw [show List.map _ P = setDataL tid s P from rfl,
      show List.map _ Q = setDataL tid s Q from rfl,
      setDataL_not_mem tid s P hP, setDataL_not_mem tid s Q hQ]
  rfl

/-- `removeIdsL` leaves a list alone when none of its ids are listed. -/
theorem removeIdsL_not_mem (ids : List Nat) (l : List DNode)
    (h : ∀ x ∈ l, x.id ∉ ids) : removeIdsL ids l = l := by
  induction l with
  | nil => rfl
  | cons x rest ih =>
    rw [removeIdsL, List.filter_cons, if_pos]
    · rw [removeIdsL] at ih
      rw [ih fun y hy => h y (List.mem_cons_of_mem _ hy)]
    · simpa using h x (List.mem_cons_self _ _)

/-- `removeIdsL` empties a list when all of its ids are listed. -/
theorem removeIdsL_all (ids : List Nat) (l : List DNode)
    (h : ∀ x ∈ l, x.id ∈ ids) : removeIdsL ids l = [] := by
  induction l with
  | nil => rfl
  | cons x rest ih =>
    rw [removeIdsL, List.filter_cons, if_neg]
    · rw [removeIdsL] at ih
      exact ih fun y hy => h y (List.mem_cons_of_mem _ hy)
    · simpa using h x (List.mem_cons_self _ _)

/-- `removeIdsL` splits over the three-part layout when the listed ids
avoid the outer parts. -/
theorem removeIdsL_frame (P Q mid : List DNode) (ids : List Nat)
    (hP : ∀ x ∈ P, x.id ∉ ids) (hQ : ∀ x ∈ Q, x.id ∉ ids) :
    removeIdsL ids (P ++ mid ++ Q) = P ++ removeIdsL ids mid ++ Q := by
  rw [removeIdsL, List.filter_append, List.filter_append]
  rw [show List.filter _ P = removeIdsL ids P from rfl,
      show List.filter _ Q = removeIdsL ids Q from rfl,
      removeIdsL_not_mem ids P hP, removeIdsL_not_mem ids Q hQ]
  rfl

/-- `insertBeforeId` splices just before the "after" boundary. -/
theorem insertBeforeId_frame (P post new mid : List DNode) (e : DNode)
    (hP : e.id ∉ topIds P) (hmid : e.id ∉ topIds mid) :
    insertBeforeId e.id new (P ++ mid ++ e :: post) = P ++ (mid ++ new) ++ e :: post := by
  induction P with
  | nil =>
    simp only [List.nil_append]
    induction mid with
    | nil =>
      rw [List.nil_append, insertBeforeId, if_pos rfl]
      simp
    | cons x rest ih =>
      rw [topIds_cons] at hmid
      have hx : x.id ≠ e.id := fun hh => hmid (by simp [hh])
      rw [List.cons_append, insertBeforeId, if_neg hx,
        ih fun hh => hmid (by simp [hh])]
      simp
  | cons x rest ih =>
    rw [topIds_cons] at hP
    have hx : x.id ≠ e.id := fun hh => hP (by simp [hh])
    rw [List.cons_append, List.cons_append, insertBeforeId, if_neg hx,
      ih fun hh => hP (by simp [hh])]
    simp

/-- In a list with duplicate-free ids, filtering by a member's id keeps
exactly that member. -/
theorem filter_id_unique (mid : List DNode) (tn : DNode)
    (hnd : (topIds mid).Nodup) (htn : tn ∈ mid) :
    mid.filter (fun x => x.id = tn.id) = [tn] := by
  induction mid with
  | nil => cases htn
  | cons x rest ih =>
    rw [topIds_cons, List.nodup_cons] at hnd
    obtain ⟨hx, hrest⟩ := hnd
    rcases List.mem_cons.mp htn with heq | hmem
    · subst heq
      rw [List.filter_cons, if_pos (by simp)]
      have hnil : rest.filter (fun y => y.id = tn.id) = [] := by
        rw [List.filter_eq_nil]
        intro y hy
        simp only [decide_eq_true_eq]
        intro hh
        exact hx (hh ▸ List.mem_map_of_mem DNode.id hy)
      rw [hnil]
    · have hxid : x.id ≠ tn.id := by
        intro hh
        exact hx (hh ▸ List.mem_map_of_mem DNode.id hmem)
      rw [List.filter_cons, if_neg (by simpa using hxid), ih hrest hmem]

/-- Top-level ids are among all ids. -/
theorem topIds_sub_idsOfList (l : List DNode) : ∀ x ∈ topIds l, x ∈ idsOfList l := by
  induction l with
  | nil => intro x hx; cases hx
  | cons n rest ih =>
    intro x hx
    rw [topIds_cons] at hx
    rw [idsOfList, List.mem_append]
    rcases List.mem_cons.mp hx with heq | hmem
    · left
      cases n with
      | text i d => rw [idsOf]; simpa [DNode.id] using heq
      | elem i t a ch => rw [idsOf]; simp [DNode.id] at heq; simp [heq]
    · right
      exact ih x hmem

mutual

/-- `removeEverywhereNode` is the identity when the id does not occur. -/
theorem removeEverywhereNode_absent (cid : Nat) (n : DNode) (h : cid ∉ idsOf n) :
    removeEverywhereNode cid n = n := by
  cases n with
  | text i d => rfl
  | elem i t a ch =>
    rw [removeEverywhereNode, removeEverywhere_absent cid ch]
    intro hmem
    rw [idsOf] at h
    exact h (List.mem_cons_of_mem _ hmem)

/-- `removeEverywhere` is the identity when the id does not occur. -/
theorem removeEverywhere_absent (cid : Nat) (ls : List DNode) (h : cid ∉ idsOfList ls) :
    removeEverywhere cid ls = ls := by
  cases ls with
  | nil => rfl
  | cons n rest =>
    rw [idsOfList] at h
    have hn : cid ∉ idsOf n := fun hm => h (List.mem_append.mpr (Or.inl hm))
    have hr : cid ∉ idsOfList rest := fun hm => h (List.mem_append.mpr (Or.inr hm))
    rw [removeEverywhere, if_neg, removeEverywhereNode_absent cid n hn,
      removeEverywhere_absent cid rest hr]
    intro hh
    apply hn
    cases n with
    | text i d => rw [idsOf]; simp [DNode.id] at hh; simp [hh]
    | elem i t a ch => rw [idsOf]; simp [DNode.id] at hh; simp [hh]

end

/-- `setDataL` preserves the id sequence. -/
theorem topIds_setDataL (tid : Nat) (s : List Char) (l : List DNode) :
    topIds (setDataL tid s l) = topIds l := by
  induction l with
  | nil => rfl
  | cons x rest ih =>
    rw [setDataL, List.map_cons, topIds_cons, topIds_cons]
    rw [setDataL] at ih
    rw [ih, id_setDataL_node]

/-- Removing every listed id keeps exactly the one member whose id is not
listed, under duplicate-free ids. -/
theorem keep_only_id (mid : List DNode) (ids : List Nat) (tn : DNode)
    (hnd : (topIds mid).Nodup) (hin : tn ∈ mid)
    (hmem : ∀ x ∈ mid, (x.id ∈ ids ↔ x.id ≠ tn.id)) :
    removeIdsL ids mid = [tn] := by
  induction mid with
  | nil => cases hin
  | cons x rest ih =>
    rw [topIds_cons, List.nodup_cons] at hnd
    obtain ⟨hx, hrest⟩ := hnd
    by_cases hxid : x.id = tn.id
    · have hxtn : x = tn := by
        rcases List.mem_cons.mp hin with heq | hmem2
        · exact heq.symm
        · exact absurd (hxid ▸ List.mem_map_of_mem DNode.id hmem2) hx
      subst hxtn
      rw [removeIdsL, List.filter_cons, if_pos]
      · have hall : removeIdsL ids rest = [] := by
          apply removeIdsL_all
          intro y hy
          have hyid : y.id ≠ x.id := by
            intro hh
            exact hx (hh ▸ List.mem_map_of_mem DNode.id hy)
          exact (hmem y (List.mem_cons_of_mem _ hy)).mpr hyid
        rw [removeIdsL] at hall
        rw [hall]
      · have : x.id ∉ ids := by
          intro hh
          exact ((hmem x (List.mem_cons_self _ _)).mp hh) rfl
        simpa [List.elem_iff] using this
    · have htn : tn ∈ rest := by
        rcases List.mem_cons.mp hin with heq | hmem2
        · exact absurd (heq ▸ rfl) hxid
        · exact hmem2
      rw [removeIdsL, List.filter_cons, if_neg]
      · have := ih hrest htn fun y hy => hmem y (List.mem_cons_of_mem _ hy)
        rw [removeIdsL] at this
        exact this
      · have : x.id ∈ ids := (hmem x (List.mem_cons_self _ _)).mpr hxid
        simpa [List.elem_iff] using this

/-- The string-update body on the full sibling list: mutate the found text
node in place, drop every other region node, leave everything outside the
region alone. -/
theorem strUpdate_apply (P post mid : List DNode) (e tn : DNode) (s : List Char)
    (hnd : (topIds (P ++ mid ++ e :: post)).Nodup)
    (htext : tn.isText = true) (htn : tn ∈ mid) :
    removeIdsL ((topIds mid).filter (fun x => x ≠ tn.id))
        (setDataL tn.id s (P ++ mid ++ e :: post))
      = P ++ [DNode.text tn.id s] ++ e :: post := by
  have hndflat : (topIds P ++ topIds mid ++ topIds (e :: post)).Nodup := by
    simpa [topIds_append] using hnd
  obtain ⟨hPn, hmn, hQn, hmPQ, hPQ⟩ := nodup_parts hndflat
  have htid : tn.id ∈ topIds mid := List.mem_map_of_mem DNode.id htn
  have hPids : ∀ x ∈ P, x.id ∉ (topIds mid).filter (fun y => y ≠ tn.id) := by
    intro x hxP hxf
    exact (hmPQ x.id (List.mem_filter.mp hxf).1).1 (List.mem_map_of_mem DNode.id hxP)
  have hQids : ∀ x ∈ e :: post, x.id ∉ (topIds mid).filter (fun y => y ≠ tn.id) := by
    intro x hxQ hxf
    exact (hmPQ x.id (List.mem_filter.mp hxf).1).2 (List.mem_map_of_mem DNode.id hxQ)
  rw [setDataL_frame P (e :: post) mid tn.id s ((hmPQ tn.id htid).1) ((hmPQ tn.id htid).2)]
  rw [removeIdsL_frame P (e :: post) (setDataL tn.id s mid) _ hPids hQids]
  obtain ⟨tid, d⟩ : ∃ tid d, tn = DNode.text tid d := by
    cases tn with
    | text i dd => exact ⟨i, dd, rfl⟩
    | elem i t a ch => simp [DNode.isText] at htext
  obtain ⟨d, htn_eq⟩ := d
  subst htn_eq
  congr 1
  congr 1
  apply keep_only_id
  · rw [topIds_setDataL]; exact hmn
  · have := List.mem_map_of_mem
      (fun n => match n with
        | DNode.text id _ => if id = tid then DNode.text id s else n
        | _ => n) htn
    simpa [setDataL] using this
  · intro x hx
    have hxid : x.id ∈ topIds mid := by
      have h1 : x.id ∈ topIds (setDataL (DNode.text tid d).id s mid) :=
        List.mem_map_of_mem DNode.id hx
      rw [topIds_setDataL] at h1
      exact h1
    constructor
    · intro hmem
      have := (List.mem_filter.mp hmem).2
      simpa using this
    · intro hne
      exact List.mem_filter.mpr ⟨hxid, by simpa using hne⟩

/-- The node-update body when the node is already in the region: drop every
other region node, keep the tree otherwise unchanged. -/
theorem keepOnly_apply (P post mid : List DNode) (e tn : DNode)
    (hnd : (topIds (P ++ mid ++ e :: post)).Nodup) (htn : tn ∈ mid) :
    removeIdsL ((topIds mid).filter (fun x => x ≠ tn.id)) (P ++ mid ++ e :: post)
      = P ++ [tn] ++ e :: post := by
  have hndflat : (topIds P ++ topIds mid ++ topIds (e :: post)).Nodup := by
    simpa [topIds_append] using hnd
  obtain ⟨hPn, hmn, hQn, hmPQ, hPQ⟩ := nodup_parts hndflat
  have hPids : ∀ x ∈ P, x.id ∉ (topIds mid).filter (fun y => y ≠ tn.id) := by
    intro x hxP hxf
    exact (hmPQ x.id (List.mem_filter.mp hxf).1).1 (List.mem_map_of_mem DNode.id hxP)
  have hQids : ∀ x ∈ e :: post, x.id ∉ (topIds mid).filter (fun y => y ≠ tn.id) := by
    intro x hxQ hxf
    exact (hmPQ x.id (List.mem_filter.mp hxf).1).2 (List.mem_map_of_mem DNode.id hxQ)
  rw [removeIdsL_frame P (e :: post) mid _ hPids hQids]
  congr 1
  congr 1
  apply keep_only_id mid _ tn hmn htn
  intro x hx
  constructor
  · intro hmem
    have := (List.mem_filter.mp hmem).2
    simpa using this
  · intro hne
    exact List.mem_filter.mpr ⟨List.mem_map_of_mem DNode.id hx, by simpa using hne⟩

/-- The insert-then-clear body: splice the new nodes before the "after"
boundary and drop all the previously collected region nodes. -/
theorem insertNew_apply (P post mid new : List DNode) (e : DNode) (ids : List Nat)
    (hnd : (topIds (P ++ mid ++ e :: post)).Nodup)
    (hids : ∀ x ∈ ids, x ∈ topIds mid)
    (hnew : ∀ x ∈ new, x.id ∉ ids)
    (hmid : ∀ x ∈ mid, x.id ∈ ids) :
    removeIdsL ids (insertBeforeId e.id new (P ++ mid ++ e :: post))
      = P ++ new ++ e :: post := by
  have hndflat : (topIds P ++ topIds mid ++ topIds (e :: post)).Nodup := by
    simpa [topIds_append] using hnd
  obtain ⟨hPn, hmn, hQn, hmPQ, hPQ⟩ := nodup_parts hndflat
  have heQ : e.id ∈ topIds (e :: post) := by
    rw [topIds_cons]; exact List.mem_cons_self _ _
  have heP : e.id ∉ topIds P := fun hm => hPQ e.id hm heQ
  have hemid : e.id ∉ topIds mid := fun hm => (hmPQ e.id hm).2 heQ
  rw [insertBeforeId_frame P post new mid e heP hemid]
  have hPids : ∀ x ∈ P, x.id ∉ ids := by
    intro x hxP hxf
    exact (hmPQ x.id (hids x.id hxf)).1 (List.mem_map_of_mem DNode.id hxP)
  have hQids : ∀ x ∈ e :: post, x.id ∉ ids := by
    intro x hxQ hxf
    exact (hmPQ x.id (hids x.id hxf)).2 (List.mem_map_of_mem DNode.id hxQ)
  rw [removeIdsL_frame P (e :: post) (mid ++ new) ids hPids hQids]
  congr 1
  congr 1
  rw [removeIdsL, List.filter_append]
  rw [show List.filter _ mid = removeIdsL ids mid from rfl,
      show List.filter _ new = removeIdsL ids new from rfl,
      removeIdsL_all ids mid hmid, removeIdsL_not_mem ids new hnew]
  rfl

/-- The "after" boundary is always a top-level member of its region
context. -/
theorem e_mem_regionCtx (A mid B : List DNode) (sa : Option DNode) (e : DNode) :
    e.id ∈ topIds (regionCtx A sa mid e B) :=
  List.mem_map_of_mem DNode.id (by cases sa <;> simp [regionCtx])

/-- String update when the region already holds a text node: that node's
data is mutated in place, every other region node is removed, no node is
created (the allocator is untouched). -/
theorem updateNodeSlotT_str_found
    (A mid B : List DNode) (sa : Option DNode) (e tn : DNode) (s : List Char) (f : Nat)
    (hnd : (topIds (regionCtx A sa mid e B)).Nodup)
    (hfind : mid.find? (·.isText) = some tn) :
    updateNodeSlotT (regionCtx A sa mid e B) (sa.map DNode.id) e.id
        (TemplateArgument.str s) f
      = (regionCtx A sa [DNode.text tn.id s] e B, f) := by
  have hemem := e_mem_regionCtx A mid B sa e
  have htn := List.mem_of_find?_eq_some hfind
  have htext := List.find?_some hfind
  rw [updateNodeSlotT]
  rw [findParentList_top _ _ hemem]
  simp only [Option.getD_some]
  rw [collect_regionCtx A mid B sa e hnd, hfind]
  simp only []
  rw [onParentList_top _ _ _ hemem]
  cases sa with
  | none =>
    rw [show regionCtx A none mid e B = [] ++ mid ++ e :: B by simp [regionCtx]] at hnd ⊢
    rw [strUpdate_apply [] B mid e tn s hnd htext htn]
    simp [regionCtx]
  | some a =>
    rw [show regionCtx A (some a) mid e B = (A ++ [a]) ++ mid ++ e :: B by
      simp [regionCtx]] at hnd ⊢
    rw [strUpdate_apply (A ++ [a]) B mid e tn s hnd htext htn]
    simp [regionCtx]

/-- String update when the region holds no text node: a fresh text node is
created and inserted immediately before the "after" boundary, every
collected region node is removed, and the allocator advances. -/
theorem updateNodeSlotT_str_new
    (A mid B : List DNode) (sa : Option DNode) (e : DNode) (s : List Char) (f : Nat)
    (hnd : (topIds (regionCtx A sa mid e B)).Nodup)
    (hf : f ∉ topIds (regionCtx A sa mid e B))
    (hfind : mid.find? (·.isText) = none) :
    updateNodeSlotT (regionCtx A sa mid e B) (sa.map DNode.id) e.id
        (TemplateArgument.str s) f
      = (regionCtx A sa [DNode.text f s] e B, f + 1) := by
  have hemem := e_mem_regionCtx A mid B sa e
  have hfmid : f ∉ topIds mid := by
    intro hm
    obtain ⟨x, hx, hxid⟩ := List.mem_map.mp hm
    apply hf
    rw [← hxid]
    apply List.mem_map_of_mem DNode.id
    cases sa <;> simp [regionCtx, hx]
  rw [updateNodeSlotT]
  rw [findParentList_top _ _ hemem]
  simp only [Option.getD_some]
  rw [collect_regionCtx A mid B sa e hnd, hfind]
  simp only []
  rw [onParentList_top _ _ _ hemem]
  cases sa with
  | none =>
    rw [show regionCtx A none mid e B = [] ++ mid ++ e :: B by simp [regionCtx]] at hnd ⊢
    rw [insertNew_apply [] B mid [DNode.text f s] e (topIds mid) hnd
      (fun x hx => hx)
      (fun x hx => by
        simp only [List.mem_singleton] at hx
        subst hx
        simpa [DNode.id] using hfmid)
      (fun x hx => List.mem_map_of_mem DNode.id hx)]
    simp [regionCtx]
  | some a =>
    rw [show regionCtx A (some a) mid e B = (A ++ [a]) ++ mid ++ e :: B by
      simp [regionCtx]] at hnd ⊢
    rw [insertNew_apply (A ++ [a]) B mid [DNode.text f s] e (topIds mid) hnd
      (fun x hx => hx)
      (fun x hx => by
        simp only [List.mem_singleton] at hx
        subst hx
        simpa [DNode.id] using hfmid)
      (fun x hx => List.mem_map_of_mem DNode.id hx)]
    simp [regionCtx]

/-- Node update when that exact node is already in the region: it is not
re-inserted; every other region node is removed. -/
theorem updateNodeSlotT_node_present
    (A mid B : List DNode) (sa : Option DNode) (e n : DNode) (f : Nat)
    (hnd : (topIds (regionCtx A sa mid e B)).Nodup)
    (hn : n ∈ mid) :
    updateNodeSlotT (regionCtx A sa mid e B) (sa.map DNode.id) e.id
        (TemplateArgument.node n) f
      = (regionCtx A sa [n] e B, f) := by
  have hemem := e_mem_regionCtx A mid B sa e
  rw [updateNodeSlotT]
  rw [findParentList_top _ _ hemem]
  simp only [Option.getD_some]
  rw [collect_regionCtx A mid B sa e hnd]
  rw [if_pos (List.any_eq_true.mpr ⟨n, hn, by simp⟩)]
  rw [onParentList_top _ _ _ hemem]
  cases sa with
  | none =>
    rw [show regionCtx A none mid e B = [] ++ mid ++ e :: B by simp [regionCtx]] at hnd ⊢
    rw [keepOnly_apply [] B mid e n hnd hn]
    simp [regionCtx]
  | some a =>
    rw [show regionCtx A (some a) mid e B = (A ++ [a]) ++ mid ++ e :: B by
      simp [regionCtx]] at hnd ⊢
    rw [keepOnly_apply (A ++ [a]) B mid e n hnd hn]
    simp [regionCtx]

/-- Splicing new nodes before the boundary and then clearing the collected
region, as one step on the parent list. -/
theorem clearInserted_apply (P post mid new : List DNode) (e : DNode) (ids : List Nat)
    (hnd : (topIds (P ++ mid ++ e :: post)).Nodup)
    (hids : ∀ x ∈ ids, x ∈ topIds mid)
    (hnew : ∀ x ∈ new, x.id ∉ ids)
    (hmid : ∀ x ∈ mid, x.id ∈ ids) :
    onParentList e.id (removeIdsL ids) (insertBeforeId e.id new (P ++ mid ++ e :: post))
      = P ++ new ++ e :: post := by
  have hndflat : (topIds P ++ topIds mid ++ topIds (e :: post)).Nodup := by
    simpa [topIds_append] using hnd
  obtain ⟨hPn, hmn, hQn, hmPQ, hPQ⟩ := nodup_parts hndflat
  have heQ : e.id ∈ topIds (e :: post) := by
    rw [topIds_cons]; exact List.mem_cons_self _ _
  have heP : e.id ∉ topIds P := fun hm => hPQ e.id hm heQ
  have hemid : e.id ∉ topIds mid := fun hm => (hmPQ e.id hm).2 heQ
  have hins := insertBeforeId_frame P post new mid e heP hemid
  rw [hins]
  rw [onParentList_top _ _ _ (List.mem_map_of_mem DNode.id (by simp))]
  rw [← hins]
  exact insertNew_apply P post mid new e ids hnd hids hnew hmid

/-- Node update when that exact node is not yet anywhere in the tree: it is
inserted immediately before the "after" boundary and every collected
region node is removed. -/
theorem updateNodeSlotT_node_fresh
    (A mid B : List DNode) (sa : Option DNode) (e n : DNode) (f : Nat)
    (hnd : (topIds (regionCtx A sa mid e B)).Nodup)
    (hfresh : n.id ∉ idsOfList (regionCtx A sa mid e B)) :
    updateNodeSlotT (regionCtx A sa mid e B) (sa.map DNode.id) e.id
        (TemplateArgument.node n) f
      = (regionCtx A sa [n] e B, f) := by
  have hemem := e_mem_regionCtx A mid B sa e
  have hntop : n.id ∉ topIds (regionCtx A sa mid e B) :=
    fun hm => hfresh (topIds_sub_idsOfList _ _ hm)
  have hnmid : n.id ∉ topIds mid := by
    intro hm
    obtain ⟨x, hx, hxid⟩ := List.mem_map.mp hm
    apply hntop
    rw [← hxid]
    apply List.mem_map_of_mem DNode.id
    cases sa <;> simp [regionCtx, hx]
  rw [updateNodeSlotT]
  rw [findParentList_top _ _ hemem]
  simp only [Option.getD_some]
  rw [collect_regionCtx A mid B sa e hnd]
  rw [if_neg (fun hany => by
    obtain ⟨x, hx, hxid⟩ := List.any_eq_true.mp hany
    simp only [decide_eq_true_eq] at hxid
    exact hnmid (hxid ▸ List.mem_map_of_mem DNode.id hx))]
  rw [removeEverywhere_absent _ _ hfresh]
  rw [onParentList_top _ _ _ hemem]
  have hids : ∀ x ∈ (topIds mid).filter (fun y => y ≠ n.id), x ∈ topIds mid :=
    fun x hx => (List.mem_filter.mp hx).1
  have hnew : ∀ x ∈ [n], x.id ∉ (topIds mid).filter (fun y => y ≠ n.id) := by
    intro x hx hmem
    simp only [List.mem_singleton] at hx
    subst hx
    have := (List.mem_filter.mp hmem).2
    simp at this
  have hmid : ∀ x ∈ mid, x.id ∈ (topIds mid).filter (fun y => y ≠ n.id) := by
    intro x hx
    refine List.mem_filter.mpr ⟨List.mem_map_of_mem DNode.id hx, ?_⟩
    simp only [decide_eq_true_eq]
    intro hh
    exact hnmid (hh ▸ List.mem_map_of_mem DNode.id hx)
  cases sa with
  | none =>
    rw [show regionCtx A none mid e B = [] ++ mid ++ e :: B by simp [regionCtx]] at hnd ⊢
    rw [clearInserted_apply [] B mid [n] e _ hnd hids hnew hmid]
    simp [regionCtx]
  | some a =>
    rw [show regionCtx A (some a) mid e B = (A ++ [a]) ++ mid ++ e :: B by
      simp [regionCtx]] at hnd ⊢
    rw [clearInserted_apply (A ++ [a]) B mid [n] e _ hnd hids hnew hmid]
    simp [regionCtx]

/-- Fragment update: a fragment is never one of the collected children, so
its child nodes are drained into the position before the "after" boundary
and every collected region node is removed. -/
theorem updateNodeSlotT_frag
    (A mid B : List DNode) (sa : Option DNode) (e : DNode) (ns : List DNode) (f : Nat)
    (hnd : (topIds (regionCtx A sa mid e B)).Nodup)
    (hdisj : ∀ x ∈ ns, x.id ∉ topIds mid) :
    updateNodeSlotT (regionCtx A sa mid e B) (sa.map DNode.id) e.id
        (TemplateArgument.frag ns) f
      = (regionCtx A sa ns e B, f) := by
  have hemem := e_mem_regionCtx A mid B sa e
  rw [updateNodeSlotT]
  rw [findParentList_top _ _ hemem]
  simp only [Option.getD_some]
  rw [collect_regionCtx A mid B sa e hnd]
  rw [onParentList_top _ _ _ hemem]
  have hids : ∀ x ∈ topIds mid, x ∈ topIds mid := fun x hx => hx
  have hmid : ∀ x ∈ mid, x.id ∈ topIds mid := fun x hx => List.mem_map_of_mem DNode.id hx
  cases sa with
  | none =>
    rw [show regionCtx A none mid e B = [] ++ mid ++ e :: B by simp [regionCtx]] at hnd ⊢
    rw [clearInserted_apply [] B mid ns e _ hnd hids hdisj hmid]
    simp [regionCtx]
  | some a =>
    rw [show regionCtx A (some a) mid e B = (A ++ [a]) ++ mid ++ e :: B by
      simp [regionCtx]] at hnd ⊢
    rw [clearInserted_apply (A ++ [a]) B mid ns e _ hnd hids hdisj hmid]
    simp [regionCtx]

/-- Rebuild a region context's duplicate-freeness after replacing the
region content with nodes whose ids come from the old region or are
globally new. -/
theorem nodup_regionCtx_replace (A B mid mid' : List DNode) (sa : Option DNode) (e : DNode)
    (hnd : (topIds (regionCtx A sa mid e B)).Nodup)
    (hm' : (topIds mid').Nodup)
    (hsub : ∀ x ∈ topIds mid', x ∈ topIds mid ∨ x ∉ topIds (regionCtx A sa mid e B)) :
    (topIds (regionCtx A sa mid' e B)).Nodup := by
  cases sa with
  | none =>
    have hctx : regionCtx A none mid e B = ([] : List DNode) ++ mid ++ e :: B := rfl
    have hctx' : regionCtx A none mid' e B = ([] : List DNode) ++ mid' ++ e :: B := rfl
    rw [hctx, topIds_append, topIds_append] at hnd
    rw [hctx', topIds_append, topIds_append]
    refine nodup_replace_middle hnd hm' fun x hx => ?_
    rcases hsub x hx with h | h
    · exact Or.inl h
    · rw [hctx, topIds_append, topIds_append] at h
      simp only [List.mem_append, not_or] at h
      exact Or.inr ⟨h.1.1, h.2⟩
  | some a =>
    have hctx : regionCtx A (some a) mid e B = (A ++ [a]) ++ mid ++ e :: B := rfl
    have hctx' : regionCtx A (some a) mid' e B = (A ++ [a]) ++ mid' ++ e :: B := rfl
    rw [hctx, topIds_append, topIds_append] at hnd
    rw [hctx', topIds_append, topIds_append]
    refine nodup_replace_middle hnd hm' fun x hx => ?_
    rcases hsub x hx with h | h
    · exact Or.inl h
    · rw [hctx, topIds_append, topIds_append] at h
      simp only [List.mem_append, not_or] at h
      exact Or.inr ⟨h.1.1, h.2⟩

/-- External insertion just before the "after" boundary appends to the
region. -/
theorem insertBeforeId_regionCtx (A mid B new : List DNode) (sa : Option DNode) (e : DNode)
    (hnd : (topIds (regionCtx A sa mid e B)).Nodup) :
    insertBeforeId e.id new (regionCtx A sa mid e B) = regionCtx A sa (mid ++ new) e B := by
  cases sa with
  | none =>
    have hctx : regionCtx A none mid e B = ([] : List DNode) ++ mid ++ e :: B := rfl
    rw [hctx, topIds_append, topIds_append] at hnd
    obtain ⟨hPn, hmn, hQn, hmPQ, hPQ⟩ := nodup_parts hnd
    have heQ : e.id ∈ topIds (e :: B) := by
      rw [topIds_cons]; exact List.mem_cons_self _ _
    rw [hctx, insertBeforeId_frame [] B new mid e (by simp [topIds])
      (fun hm => (hmPQ e.id hm).2 heQ)]
    rfl
  | some a =>
    have hctx : regionCtx A (some a) mid e B = (A ++ [a]) ++ mid ++ e :: B := rfl
    rw [hctx, topIds_append, topIds_append] at hnd
    obtain ⟨hPn, hmn, hQn, hmPQ, hPQ⟩ := nodup_parts hnd
    have heQ : e.id ∈ topIds (e :: B) := by
      rw [topIds_cons]; exact List.mem_cons_self _ _
    rw [hctx, insertBeforeId_frame (A ++ [a]) B new mid e
      (fun hm => hPQ e.id hm heQ) (fun hm => (hmPQ e.id hm).2 heQ)]
    rfl

/-- Claim C5: applying the same string value twice in a row to the same
node-kind anchor is idempotent: after the first call the region between
the boundaries is exactly one text node carrying the string, and the
second call returns the very same tree with the very same text-node
identity `tid` and an untouched node allocator — it mutates that text node
in place (to its current data) and neither inserts nor removes any node. -/
theorem c5_string_idempotent
    (A mid B : List DNode) (sa : Option DNode) (e : DNode) (s : List Char) (f f2 : Nat)
    (hnd : (topIds (regionCtx A sa mid e B)).Nodup)
    (hf : f ∉ topIds (regionCtx A sa mid e B)) :
    ∃ tid,
      (updateNodeSlotT (regionCtx A sa mid e B) (sa.map DNode.id) e.id
          (TemplateArgument.str s) f).1
        = regionCtx A sa [DNode.text tid s] e B ∧
      collectChildNodes (sa.map DNode.id) e.id
          (regionCtx A sa [DNode.text tid s] e B) = [DNode.text tid s] ∧
      updateNodeSlotT (regionCtx A sa [DNode.text tid s] e B) (sa.map DNode.id) e.id
          (TemplateArgument.str s) f2
        = (regionCtx A sa [DNode.text tid s] e B, f2) := by
  have key : ∀ tid, (tid ∈ topIds mid ∨ tid = f) →
      (topIds (regionCtx A sa [DNode.text tid s] e B)).Nodup := by
    intro tid htid
    apply nodup_regionCtx_replace A B mid _ sa e hnd
    · simp [topIds]
    · intro x hx
      simp only [topIds, List.map_cons, List.map_nil, List.mem_singleton, DNode.id] at hx
      subst hx
      rcases htid with h | h
      · exact Or.inl h
      · subst h
        exact Or.inr hf
  cases hfind : mid.find? (·.isText) with
  | some tn =>
    have htn := List.mem_of_find?_eq_some hfind
    have hnd' := key tn.id (Or.inl (List.mem_map_of_mem DNode.id htn))
    have h1 := updateNodeSlotT_str_found A mid B sa e tn s f hnd hfind
    exact ⟨tn.id, by rw [h1], collect_regionCtx A _ B sa e hnd',
      updateNodeSlotT_str_found A [DNode.text tn.id s] B sa e (DNode.text tn.id s) s f2 hnd' rfl⟩
  | none =>
    have hnd' := key f (Or.inr rfl)
    have h1 := updateNodeSlotT_str_new A mid B sa e s f hnd hf hfind
    exact ⟨f, by rw [h1], collect_regionCtx A _ B sa e hnd',
      updateNodeSlotT_str_found A [DNode.text f s] B sa e (DNode.text f s) s f2 hnd' rfl⟩

/-- Witness for C5 at a concrete region: one element node between the
start of the parent and an empty-text boundary. -/
theorem c5_string_idempotent_witness :
    ∃ tid,
      (updateNodeSlotT (regionCtx [] none [DNode.elem 1 "b" [] []] (DNode.text 9 []) [])
          (Option.map DNode.id none) (DNode.text 9 []).id
          (TemplateArgument.str (String.toList "hi")) 50).1
        = regionCtx [] none [DNode.text tid (String.toList "hi")] (DNode.text 9 []) [] ∧
      collectChildNodes (Option.map DNode.id none) (DNode.text 9 []).id
          (regionCtx [] none [DNode.text tid (String.toList "hi")] (DNode.text 9 []) [])
        = [DNode.text tid (String.toList "hi")] ∧
      updateNodeSlotT
          (regionCtx [] none [DNode.text tid (String.toList "hi")] (DNode.text 9 []) [])
          (Option.map DNode.id none) (DNode.text 9 []).id
          (TemplateArgument.str (String.toList "hi")) 60
        = (regionCtx [] none [DNode.text tid (String.toList "hi")] (DNode.text 9 []) [], 60) :=
  c5_string_idempotent [] [DNode.elem 1 "b" [] []] [] none (DNode.text 9 [])
    (String.toList "hi") 50 60 (by decide) (by decide)

/-- Claim C6: applying a node value to a node-kind anchor.  A node not yet
in the tree is inserted immediately before the "after" boundary and every
other region node is removed; a node already in the region is not
re-inserted and every other region node is removed; a multi-node container
(fragment) drains its children into the position before the boundary.  In
every case the region's content afterwards is exactly the applied node
(resp. the drained children). -/
theorem c6_node_value_update
    (A mid B : List DNode) (sa : Option DNode) (e : DNode) (f : Nat)
    (hnd : (topIds (regionCtx A sa mid e B)).Nodup) :
    (∀ n : DNode, n.id ∉ idsOfList (regionCtx A sa mid e B) →
      updateNodeSlotT (regionCtx A sa mid e B) (sa.map DNode.id) e.id
          (TemplateArgument.node n) f
        = (regionCtx A sa [n] e B, f) ∧
      collectChildNodes (sa.map DNode.id) e.id (regionCtx A sa [n] e B) = [n]) ∧
    (∀ n : DNode, n ∈ mid →
      updateNodeSlotT (regionCtx A sa mid e B) (sa.map DNode.id) e.id
          (TemplateArgument.node n) f
        = (regionCtx A sa [n] e B, f) ∧
      collectChildNodes (sa.map DNode.id) e.id (regionCtx A sa [n] e B) = [n]) ∧
    (∀ ns : List DNode, (topIds ns).Nodup →
      (∀ x ∈ ns, x.id ∉ topIds (regionCtx A sa mid e B)) →
      updateNodeSlotT (regionCtx A sa mid e B) (sa.map DNode.id) e.id
          (TemplateArgument.frag ns) f
        = (regionCtx A sa ns e B, f) ∧
      collectChildNodes (sa.map DNode.id) e.id (regionCtx A sa ns e B) = ns) := by
  refine ⟨?_, ?_, ?_⟩
  · intro n hfresh
    have h1 := updateNodeSlotT_node_fresh A mid B sa e n f hnd hfresh
    have hnd' : (topIds (regionCtx A sa [n] e B)).Nodup := by
      apply nodup_regionCtx_replace A B mid _ sa e hnd (by simp [topIds])
      intro x hx
      simp only [topIds, List.map_cons, List.map_nil, List.mem_singleton] at hx
      subst hx
      exact Or.inr fun hm => hfresh (topIds_sub_idsOfList _ _ hm)
    exact ⟨h1, collect_regionCtx A _ B sa e hnd'⟩
  · intro n hmem
    have h1 := updateNodeSlotT_node_present A mid B sa e n f hnd hmem
    have hnd' : (topIds (regionCtx A sa [n] e B)).Nodup := by
      apply nodup_regionCtx_replace A B mid _ sa e hnd (by simp [topIds])
      intro x hx
      simp only [topIds, List.map_cons, List.map_nil, List.mem_singleton] at hx
      subst hx
      exact Or.inl (List.mem_map_of_mem DNode.id hmem)
    exact ⟨h1, collect_regionCtx A _ B sa e hnd'⟩
  · intro ns hnsnd hdisj
    have hdisjmid : ∀ x ∈ ns, x.id ∉ topIds mid := by
      intro x hx hm
      apply hdisj x hx
      obtain ⟨y, hy, hyid⟩ := List.mem_map.mp hm
      rw [← hyid]
      apply List.mem_map_of_mem DNode.id
      cases sa <;> simp [regionCtx, hy]
    have h1 := updateNodeSlotT_frag A mid B sa e ns f hnd hdisjmid
    have hnd' : (topIds (regionCtx A sa ns e B)).Nodup := by
      apply nodup_regionCtx_replace A B mid ns sa e hnd hnsnd
      intro x hx
      obtain ⟨y, hy, hyid⟩ := List.mem_map.mp hx
      right
      rw [← hyid]
      exact hdisj y hy
    exact ⟨h1, collect_regionCtx A _ B sa e hnd'⟩

/-- Witness for C6 at a concrete region: inserting a fresh list element
into a region currently holding an old text node. -/
theorem c6_node_value_update_witness :
    (updateNodeSlotT
        (regionCtx [] (some (DNode.text 5 [])) [DNode.text 7 []] (DNode.text 9 []) [])
        (Option.map DNode.id (some (DNode.text 5 []))) (DNode.text 9 []).id
        (TemplateArgument.node (DNode.elem 100 "li" [] [])) 50
      = (regionCtx [] (some (DNode.text 5 [])) [DNode.elem 100 "li" [] []]
          (DNode.text 9 []) [], 50)) ∧
    collectChildNodes (Option.map DNode.id (some (DNode.text 5 []))) (DNode.text 9 []).id
        (regionCtx [] (some (DNode.text 5 [])) [DNode.elem 100 "li" [] []] (DNode.text 9 []) [])
      = [DNode.elem 100 "li" [] []] :=
  (c6_node_value_update [] [DNode.text 7 []] [] (some (DNode.text 5 [])) (DNode.text 9 []) 50
    (by decide)).1 (DNode.elem 100 "li" [] []) (by decide)

/-- Every top-level id of a region context with replaced content comes from
the new content or from the original context. -/
theorem topIds_regionCtx_cases (A mid mid' B : List DNode) (sa : Option DNode) (e : DNode) :
    ∀ x ∈ topIds (regionCtx A sa mid' e B),
      x ∈ topIds mid' ∨ x ∈ topIds (regionCtx A sa mid e B) := by
  intro x hm
  obtain ⟨n, hn, hnid⟩ := List.mem_map.mp hm
  subst hnid
  have hcases : n ∈ mid' ∨ n ∈ regionCtx A sa mid e B := by
    cases sa <;> simp [regionCtx] at hn ⊢ <;> tauto
  rcases hcases with h | h
  · exact Or.inl (List.mem_map_of_mem DNode.id h)
  · exact Or.inr (List.mem_map_of_mem DNode.id h)

/-- Claim C7: region membership is recomputed from the live sibling
structure on every update call.  After a first string update (leaving one
text node `tid` in the region), external code inserts an extra node `y`
into the region (just before the "after" boundary); the next update still
removes every node present in the region — including the externally
inserted `y`, which afterwards is nowhere in the sibling list — except the
text node being set. -/
theorem c7_region_recomputed
    (A mid B : List DNode) (sa : Option DNode) (e y : DNode) (s s2 : List Char) (f f2 : Nat)
    (hnd : (topIds (regionCtx A sa mid e B)).Nodup)
    (hf : f ∉ topIds (regionCtx A sa mid e B))
    (hy : y.id ∉ topIds (regionCtx A sa mid e B)) (hyf : y.id ≠ f) :
    ∃ tid,
      (updateNodeSlotT (regionCtx A sa mid e B) (sa.map DNode.id) e.id
          (TemplateArgument.str s) f).1
        = regionCtx A sa [DNode.text tid s] e B ∧
      insertBeforeId e.id [y] (regionCtx A sa [DNode.text tid s] e B)
        = regionCtx A sa [DNode.text tid s, y] e B ∧
      (updateNodeSlotT (regionCtx A sa [DNode.text tid s, y] e B) (sa.map DNode.id) e.id
          (TemplateArgument.str s2) f2).1
        = regionCtx A sa [DNode.text tid s2] e B ∧
      y.id ∉ topIds (regionCtx A sa [DNode.text tid s2] e B) ∧
      collectChildNodes (sa.map DNode.id) e.id (regionCtx A sa [DNode.text tid s2] e B)
        = [DNode.text tid s2] := by
  have main : ∀ tid, (tid ∈ topIds mid ∨ tid = f) →
      ((updateNodeSlotT (regionCtx A sa mid e B) (sa.map DNode.id) e.id
          (TemplateArgument.str s) f).1
        = regionCtx A sa [DNode.text tid s] e B) →
      ∃ tid,
        (updateNodeSlotT (regionCtx A sa mid e B) (sa.map DNode.id) e.id
            (TemplateArgument.str s) f).1
          = regionCtx A sa [DNode.text tid s] e B ∧
        insertBeforeId e.id [y] (regionCtx A sa [DNode.text tid s] e B)
          = regionCtx A sa [DNode.text tid s, y] e B ∧
        (updateNodeSlotT (regionCtx A sa [DNode.text tid s, y] e B) (sa.map DNode.id) e.id
            (TemplateArgument.str s2) f2).1
          = regionCtx A sa [DNode.text tid s2] e B ∧
        y.id ∉ topIds (regionCtx A sa [DNode.text tid s2] e B) ∧
        collectChildNodes (sa.map DNode.id) e.id (regionCtx A sa [DNode.text tid s2] e B)
          = [DNode.text tid s2] := by
    intro tid hprov h1
    have htidy : y.id ≠ tid := by
      rcases hprov with h | h
      · intro hh
        apply hy
        subst hh
        obtain ⟨x, hx, hxid⟩ := List.mem_map.mp h
        rw [← hxid]
        apply List.mem_map_of_mem DNode.id
        cases sa <;> simp [regionCtx, hx]
      · subst h
        exact hyf
    have hsub1 : ∀ x ∈ topIds [DNode.text tid s],
        x ∈ topIds mid ∨ x ∉ topIds (regionCtx A sa mid e B) := by
      intro x hx
      simp only [topIds, List.map_cons, List.map_nil, List.mem_singleton, DNode.id] at hx
      subst hx
      rcases hprov with h | h
      · exact Or.inl h
      · subst h
        exact Or.inr hf
    have hnd1 := nodup_regionCtx_replace A B mid [DNode.text tid s] sa e hnd
      (by simp [topIds]) hsub1
    have hins := insertBeforeId_regionCtx A [DNode.text tid s] B [y] sa e hnd1
    have hnd2 := nodup_regionCtx_replace A B mid [DNode.text tid s, y] sa e hnd
      (by
        simp only [topIds, List.map_cons, List.map_nil, DNode.id, List.nodup_cons,
          List.mem_singleton, List.not_mem_nil, not_false_iff, List.nodup_nil, and_true]
        exact fun hh => htidy hh.symm)
      (by
        intro x hx
        simp only [topIds, List.map_cons, List.map_nil, DNode.id] at hx
        rcases List.mem_cons.mp hx with h | h
        · subst h
          rcases hprov with h2 | h2
          · exact Or.inl h2
          · subst h2
            exact Or.inr hf
        · simp only [List.mem_singleton] at h
          subst h
          exact Or.inr hy)
    have h3 := updateNodeSlotT_str_found A [DNode.text tid s, y] B sa e
      (DNode.text tid s) s2 f2 hnd2 rfl
    have hsub3 : ∀ x ∈ topIds [DNode.text tid s2],
        x ∈ topIds mid ∨ x ∉ topIds (regionCtx A sa mid e B) := by
      intro x hx
      simp only [topIds, List.map_cons, List.map_nil, List.mem_singleton, DNode.id] at hx
      subst hx
      rcases hprov with h | h
      · exact Or.inl h
      · subst h
        exact Or.inr hf
    have hnd3 := nodup_regionCtx_replace A B mid [DNode.text tid s2] sa e hnd
      (by simp [topIds]) hsub3
    refine ⟨tid, h1, hins, by rw [h3]; rfl, ?_, collect_regionCtx A _ B sa e hnd3⟩
    intro hm
    rcases topIds_regionCtx_cases A mid [DNode.text tid s2] B sa e y.id hm with h | h
    · simp only [topIds, List.map_cons, List.map_nil, List.mem_singleton, DNode.id] at h
      exact htidy h
    · exact hy h
  cases hfind : mid.find? (·.isText) with
  | some tn =>
    exact main tn.id
      (Or.inl (List.mem_map_of_mem DNode.id (List.mem_of_find?_eq_some hfind)))
      (by rw [updateNodeSlotT_str_found A mid B sa e tn s f hnd hfind])
  | none =>
    exact main f (Or.inr rfl)
      (by rw [updateNodeSlotT_str_new A mid B sa e s f hnd hf hfind])

/-- Witness for C7 at a concrete region with an externally inserted
element. -/
theorem c7_region_recomputed_witness :
    ∃ tid,
      (updateNodeSlotT (regionCtx [] none [DNode.text 7 []] (DNode.text 9 []) [])
          (Option.map DNode.id none) (DNode.text 9 []).id
          (TemplateArgument.str (String.toList "one")) 50).1
        = regionCtx [] none [DNode.text tid (String.toList "one")] (DNode.text 9 []) [] ∧
      insertBeforeId (DNode.text 9 []).id [DNode.elem 77 "span" [] []]
          (regionCtx [] none [DNode.text tid (String.toList "one")] (DNode.text 9 []) [])
        = regionCtx [] none [DNode.text tid (String.toList "one"), DNode.elem 77 "span" [] []]
            (DNode.text 9 []) [] ∧
      (updateNodeSlotT
          (regionCtx [] none [DNode.text tid (String.toList "one"), DNode.elem 77 "span" [] []]
            (DNode.text 9 []) [])
          (Option.map DNode.id none) (DNode.text 9 []).id
          (TemplateArgument.str (String.toList "two")) 60).1
        = regionCtx [] none [DNode.text tid (String.toList "two")] (DNode.text 9 []) [] ∧
      (DNode.elem 77 "span" [] []).id ∉ topIds
          (regionCtx [] none [DNode.text tid (String.toList "two")] (DNode.text 9 []) []) ∧
      collectChildNodes (Option.map DNode.id none) (DNode.text 9 []).id
          (regionCtx [] none [DNode.text tid (String.toList "two")] (DNode.text 9 []) [])
        = [DNode.text tid (String.toList "two")] :=
  c7_region_recomputed [] [DNode.text 7 []] [] none (DNode.text 9 [])
    (DNode.elem 77 "span" [] []) (String.toList "one") (String.toList "two") 50 60
    (by decide) (by decide) (by decide) (by decide)

/-!
## Slot-path well-formedness of the compiler walk (towards C4)
-/

/-- `splitPieces` never returns an empty piece list. -/
theorem splitPieces_ne_nil (cs : List Char) : splitPieces cs ≠ [] := by
  cases cs with
  | nil => simp [splitPieces]
  | cons c rest =>
    rw [splitPieces]
    by_cases hc : c = replacement
    · simp [hc]
    · rw [if_neg hc]
      cases hsp : splitPieces rest with
      | nil => simp
      | cons hd tl =>
        rcases hd with ⟨p, b⟩
        cases b <;> simp

/-- The last piece of a split always has a `false` flag: after the last
marker the unconditional split leaves a (possibly empty) remainder. -/
theorem splitPieces_last_false (cs : List Char) :
    ∃ dl, (splitPieces cs).getLast? = some (dl, false) := by
  induction cs with
  | nil => exact ⟨[], rfl⟩
  | cons c rest ih =>
    rw [splitPieces]
    by_cases hc : c = replacement
    · rw [if_pos hc]
      obtain ⟨dl, hdl⟩ := ih
      rcases hsp : splitPieces rest with _ | ⟨y, tl⟩
      · exact absurd hsp (splitPieces_ne_nil rest)
      · rw [hsp] at hdl
        rw [List.getLast?_cons_cons]
        exact ⟨dl, hdl⟩
    · rw [if_neg hc]
      rcases hsp : splitPieces rest with _ | ⟨⟨p, b⟩, tl⟩
      · exact absurd hsp (splitPieces_ne_nil rest)
      · obtain ⟨dl, hdl⟩ := ih
        rw [hsp] at hdl
        cases b with
        | false =>
          cases tl with
          | nil => exact ⟨c :: p, rfl⟩
          | cons z tl2 =>
            rw [List.getLast?_cons_cons] at hdl ⊢
            exact ⟨dl, hdl⟩
        | true =>
          rw [List.getLast?_cons_cons]
          exact ⟨dl, hdl⟩

/-- Every marker piece has a following piece (the unconditional first
split always leaves a remainder). -/
theorem splitPieces_marker_next (cs : List Char) (k : Nat) (d : List Char)
    (h : (splitPieces cs).get? k = some (d, true)) :
    ((splitPieces cs).get? (k + 1)).isSome := by
  obtain ⟨dl, hdl⟩ := splitPieces_last_false cs
  have hk : k < (splitPieces cs).length := by
    by_contra hle
    rw [List.get?_eq_none.mpr (by omega)] at h
    exact absurd h (by simp)
  by_cases hlt : k + 1 < (splitPieces cs).length
  · rw [List.get?_eq_get hlt]
    rfl
  · have hlen : (splitPieces cs).length - 1 = k := by omega
    rw [List.getLast?_eq_get?, hlen, h] at hdl
    simp at hdl

/-- `piecesToNodes` emits one node per piece. -/
theorem piecesToNodes_length (fresh : Nat) (ps : List (List Char × Bool)) :
    (piecesToNodes fresh ps).1.length = ps.length := by
  induction ps generalizing fresh with
  | nil => rfl
  | cons hd tl ih =>
    rcases hd with ⟨d, b⟩
    rw [piecesToNodes]
    simp only [List.length_cons]
    rw [← ih (fresh + 1)]

/-- `splitNodes` emits one node per piece. -/
theorem splitNodes_length (id fresh : Nat) (ps : List (List Char × Bool)) :
    (splitNodes id fresh ps).1.length = ps.length := by
  cases ps with
  | nil => rfl
  | cons hd tl =>
    rcases hd with ⟨d, b⟩
    rw [splitNodes]
    simp only [List.length_cons]
    rw [← piecesToNodes_length fresh tl]

/-- Membership in `markerIdxs` is an offset marker position. -/
theorem markerIdxs_mem (ps : List (List Char × Bool)) :
    ∀ i j, j ∈ markerIdxs i ps → ∃ k d, j = i + k ∧ ps.get? k = some (d, true) := by
  induction ps with
  | nil => intro i j h; simp [markerIdxs] at h
  | cons hd tl ih =>
    intro i j h
    rcases hd with ⟨d, b⟩
    rw [markerIdxs] at h
    rw [List.mem_append] at h
    rcases h with h | h
    · cases b with
      | false => simp at h
      | true =>
        simp only [if_true, List.mem_singleton] at h
        exact ⟨0, d, by omega, by simp⟩
    · obtain ⟨k, d2, hj, hk⟩ := ih (i + 1) j h
      exact ⟨k + 1, d2, by omega, by simpa using hk⟩

/-- A defined index is in bounds. -/
theorem get?_isSome_lt {α : Type} {l : List α} {n : Nat} (h : (l.get? n).isSome) :
    n < l.length := by
  by_contra hle
  rw [List.get?_eq_none.mpr (by omega)] at h
  simp at h

/-- An in-bounds index is defined. -/
theorem get?_isSome_of_lt {α : Type} {l : List α} {n : Nat} (h : n < l.length) :
    (l.get? n).isSome := by
  rw [List.get?_eq_get h]
  rfl

/-- Appending siblings on the right preserves a resolvable-with-next
path. -/
theorem rwn_extend (ns more : List DNode) : ∀ q, resolvableWithNext ns q →
    resolvableWithNext (ns ++ more) q := by
  intro q h
  match q with
  | [] => exact h.elim
  | [j] =>
    obtain ⟨h1, h2⟩ := h
    exact ⟨by rw [List.get?_append (get?_isSome_lt h1)]; exact h1,
           by rw [List.get?_append (get?_isSome_lt h2)]; exact h2⟩
  | j :: k :: rest =>
    obtain ⟨n, hn, hrec⟩ := h
    exact ⟨n, by rw [List.get?_append (get?_isSome_lt (by rw [hn]; rfl))]; exact hn, hrec⟩

/-- Appending siblings on the right preserves a resolvable path. -/
theorem ra_extend (ns more : List DNode) : ∀ q, resolvableAt ns q →
    resolvableAt (ns ++ more) q := by
  intro q h
  match q with
  | [] => exact h.elim
  | [j] =>
    show ((ns ++ more).get? j).isSome
    rw [List.get?_append (get?_isSome_lt h)]
    exact h
  | j :: k :: rest =>
    obtain ⟨n, hn, hrec⟩ := h
    exact ⟨n, by rw [List.get?_append (get?_isSome_lt (by rw [hn]; rfl))]; exact hn, hrec⟩

/-- Prepending siblings shifts a resolvable-with-next path's head index. -/
theorem rwn_shift (pre ns : List DNode) : ∀ j tail, resolvableWithNext ns (j :: tail) →
    resolvableWithNext (pre ++ ns) ((pre.length + j) :: tail) := by
  intro j tail h
  match tail with
  | [] =>
    obtain ⟨h1, h2⟩ := h
    constructor
    · rw [List.get?_append_right (by omega), show pre.length + j - pre.length = j by omega]
      exact h1
    · rw [List.get?_append_right (by omega),
        show pre.length + j + 1 - pre.length = j + 1 by omega]
      exact h2
  | k :: rest =>
    obtain ⟨n, hn, hrec⟩ := h
    refine ⟨n, ?_, hrec⟩
    rw [List.get?_append_right (by omega), show pre.length + j - pre.length = j by omega]
    exact hn

/-- Prepending siblings shifts a resolvable path's head index. -/
theorem ra_shift (pre ns : List DNode) : ∀ j tail, resolvableAt ns (j :: tail) →
    resolvableAt (pre ++ ns) ((pre.length + j) :: tail) := by
  intro j tail h
  match tail with
  | [] =>
    show ((pre ++ ns).get? (pre.length + j)).isSome
    rw [List.get?_append_right (by omega), show pre.length + j - pre.length = j by omega]
    exact h
  | k :: rest =>
    obtain ⟨n, hn, hrec⟩ := h
    refine ⟨n, ?_, hrec⟩
    rw [List.get?_append_right (by omega), show pre.length + j - pre.length = j by omega]
    exact hn

mutual

/-- Every slot the visit of one node emits is well-placed in the nodes the
visit leaves behind: its path extends the parent path, a `node`-kind slot
addresses an existing node with a following sibling, an `attr-value` slot
an existing node. -/
theorem walkNode_slots_ok : ∀ (fresh : Nat) (p : List Nat) (i : Nat) (n : DNode),
    ∀ s ∈ (walkNode fresh p i n).2.1, slotOk (walkNode fresh p i n).1 p i s
  | fresh, p, i, DNode.text id d => by
    intro s hs
    simp only [walkNode] at hs ⊢
    rcases hsn : splitNodes id fresh (splitPieces d) with ⟨pns, f1⟩
    simp only [] at hs ⊢
    obtain ⟨j, hj, rfl⟩ := List.mem_map.mp hs
    obtain ⟨k, d2, rfl, hk⟩ := markerIdxs_mem (splitPieces d) i j hj
    rw [slotOk]
    refine ⟨k, [], rfl, ?_, ?_⟩
    · apply get?_isSome_of_lt
      rw [show pns.length = (splitNodes id fresh (splitPieces d)).1.length by rw [hsn],
        splitNodes_length]
      exact get?_isSome_lt (by rw [hk]; rfl)
    · apply get?_isSome_of_lt
      rw [show pns.length = (splitNodes id fresh (splitPieces d)).1.length by rw [hsn],
        splitNodes_length]
      exact get?_isSome_lt (splitPieces_marker_next d k d2 hk)
  | fresh, p, i, DNode.elem id tag attrs children => by
    intro s hs
    simp only [walkNode] at hs ⊢
    rcases hwc : walkChildren fresh (p ++ [i]) 0 children with ⟨cns, cslots, f1⟩
    rw [hwc] at hs
    simp only [] at hs ⊢
    rw [List.mem_append] at hs
    rcases hs with hs | hs
    · rw [attrSlotsOf] at hs
      obtain ⟨a, ha, hfa⟩ := List.mem_filterMap.mp hs
      by_cases hv : a.2 = [replacement]
      · rw [if_pos hv] at hfa
        injection hfa with hfa
        subst hfa
        rw [slotOk]
        exact ⟨0, [], by simp, by simp [resolvableAt]⟩
      · rw [if_neg hv] at hfa
        cases hfa
    · have hok := walkChildren_slots_ok fresh (p ++ [i]) 0 children s (by rw [hwc]; exact hs)
      rw [hwc] at hok
      cases s with
      | node path =>
        rw [slotOk] at hok ⊢
        obtain ⟨j, tail, hpath, hres⟩ := hok
        refine ⟨0, j :: tail, ?_, ?_⟩
        · rw [hpath]; simp
        · exact ⟨DNode.elem id tag attrs cns, by simp, hres⟩
      | attrValue path nm =>
        rw [slotOk] at hok ⊢
        obtain ⟨j, tail, hpath, hres⟩ := hok
        refine ⟨0, j :: tail, ?_, ?_⟩
        · rw [hpath]; simp
        · exact ⟨DNode.elem id tag attrs cns, by simp, hres⟩

/-- Every slot the walk of a child list emits is well-placed in the nodes
it leaves behind. -/
theorem walkChildren_slots_ok : ∀ (fresh : Nat) (p : List Nat) (i : Nat) (cs : List DNode),
    ∀ s ∈ (walkChildren fresh p i cs).2.1, slotOk (walkChildren fresh p i cs).1 p i s
  | fresh, p, i, [] => by
    intro s hs
    simp [walkChildren] at hs
  | fresh, p, i, n :: rest => by
    intro s hs
    simp only [walkChildren] at hs ⊢
    rcases hw1 : walkNode fresh p i n with ⟨ns1, sl1, f1⟩
    rw [hw1] at hs
    simp only [] at hs ⊢
    rcases hw2 : walkChildren f1 p (i + ns1.length) rest with ⟨ns2, sl2, f2⟩
    rw [hw2] at hs
    simp only [] at hs ⊢
    rw [List.mem_append] at hs
    rcases hs with hs | hs
    · have hok := walkNode_slots_ok fresh p i n s (by rw [hw1]; exact hs)
      rw [hw1] at hok
      cases s with
      | node path =>
        rw [slotOk] at hok ⊢
        obtain ⟨j, tail, hpath, hres⟩ := hok
        exact ⟨j, tail, hpath, rwn_extend ns1 ns2 _ hres⟩
      | attrValue path nm =>
        rw [slotOk] at hok ⊢
        obtain ⟨j, tail, hpath, hres⟩ := hok
        exact ⟨j, tail, hpath, ra_extend ns1 ns2 _ hres⟩
    · have hok := walkChildren_slots_ok f1 p (i + ns1.length) rest s (by rw [hw2]; exact hs)
      rw [hw2] at hok
      cases s with
      | node path =>
        rw [slotOk] at hok ⊢
        obtain ⟨j, tail, hpath, hres⟩ := hok
        refine ⟨ns1.length + j, tail, ?_, rwn_shift ns1 ns2 _ _ hres⟩
        rw [hpath, show i + ns1.length + j = i + (ns1.length + j) by omega]
      | attrValue path nm =>
        rw [slotOk] at hok ⊢
        obtain ⟨j, tail, hpath, hres⟩ := hok
        refine ⟨ns1.length + j, tail, ?_, ra_shift ns1 ns2 _ _ hres⟩
        rw [hpath, show i + ns1.length + j = i + (ns1.length + j) by omega]

end

/-- `stripIdsList` acts pointwise on indexing. -/
theorem stripIdsList_get? (ls : List DNode) : ∀ j,
    (stripIdsList ls).get? j = (ls.get? j).map stripIds := by
  induction ls with
  | nil => intro j; cases j <;> rfl
  | cons n rest ih =>
    intro j
    cases j with
    | zero => rfl
    | succ j =>
      rw [stripIdsList, List.get?_cons_succ, List.get?_cons_succ, ih]

/-- Children and id erasure commute. -/
theorem children_stripIds (n : DNode) : (stripIds n).children = stripIdsList n.children := by
  cases n <;> rfl

/-- A path resolves (with next sibling) in an id-erased forest iff it does
in the original. -/
theorem rwn_strip : ∀ (q : List Nat) (ns : List DNode),
    resolvableWithNext (stripIdsList ns) q ↔ resolvableWithNext ns q
  | [], ns => Iff.rfl
  | [j], ns => by
    show ((stripIdsList ns).get? j).isSome ∧ ((stripIdsList ns).get? (j + 1)).isSome ↔
      (ns.get? j).isSome ∧ (ns.get? (j + 1)).isSome
    rw [stripIdsList_get?, stripIdsList_get?]
    cases ns.get? j <;> cases ns.get? (j + 1) <;> simp
  | j :: k :: rest, ns => by
    constructor
    · rintro ⟨m, hm, hrec⟩
      rw [stripIdsList_get?] at hm
      cases hg : ns.get? j with
      | none => rw [hg] at hm; cases hm
      | some n0 =>
        rw [hg] at hm
        injection hm with hm
        refine ⟨n0, hg, ?_⟩
        rw [← rwn_strip (k :: rest) n0.children]
        rw [← children_stripIds, hm]
        exact hrec
    · rintro ⟨n0, hn0, hrec⟩
      refine ⟨stripIds n0, by rw [stripIdsList_get?, hn0]; rfl, ?_⟩
      rw [children_stripIds]
      exact (rwn_strip (k :: rest) n0.children).mpr hrec

/-- A path resolves in an id-erased forest iff it does in the original. -/
theorem ra_strip : ∀ (q : List Nat) (ns : List DNode),
    resolvableAt (stripIdsList ns) q ↔ resolvableAt ns q
  | [], ns => Iff.rfl
  | [j], ns => by
    show ((stripIdsList ns).get? j).isSome ↔ (ns.get? j).isSome
    rw [stripIdsList_get?]
    cases ns.get? j <;> simp
  | j :: k :: rest, ns => by
    constructor
    · rintro ⟨m, hm, hrec⟩
      rw [stripIdsList_get?] at hm
      cases hg : ns.get? j with
      | none => rw [hg] at hm; cases hm
      | some n0 =>
        rw [hg] at hm
        injection hm with hm
        refine ⟨n0, hg, ?_⟩
        rw [← ra_strip (k :: rest) n0.children]
        rw [← children_stripIds, hm]
        exact hrec
    · rintro ⟨n0, hn0, hrec⟩
      refine ⟨stripIds n0, by rw [stripIdsList_get?, hn0]; rfl, ?_⟩
      rw [children_stripIds]
      exact (ra_strip (k :: rest) n0.children).mpr hrec

mutual

/-- Cloning then erasing ids equals erasing ids (single node). -/
theorem stripIds_relabelNode (fresh : Nat) (n : DNode) :
    stripIds ((relabelNode fresh n).1) = stripIds n := by
  cases n with
  | text i d => rfl
  | elem i t a ch =>
    rw [relabelNode]
    rcases hr : relabelList (fresh + 1) ch with ⟨cs, f⟩
    simp only []
    rw [stripIds, stripIds]
    have := stripIdsList_relabelList (fresh + 1) ch
    rw [hr] at this
    rw [this]

/-- Cloning then erasing ids equals erasing ids (child list). -/
theorem stripIdsList_relabelList (fresh : Nat) (ls : List DNode) :
    stripIdsList ((relabelList fresh ls).1) = stripIdsList ls := by
  cases ls with
  | nil => rfl
  | cons n rest =>
    rw [relabelList]
    rcases h1 : relabelNode fresh n with ⟨n2, f1⟩
    simp only []
    rcases h2 : relabelList f1 rest with ⟨ns, f2⟩
    simp only []
    rw [stripIdsList, stripIdsList]
    have e1 := stripIds_relabelNode fresh n
    rw [h1] at e1
    simp only [] at e1
    have e2 := stripIdsList_relabelList f1 rest
    rw [h2] at e2
    simp only [] at e2
    rw [e1, e2]

end

/-- Cloning preserves resolvability-with-next. -/
theorem rwn_relabel (f : Nat) (ns : List DNode) (q : List Nat)
    (h : resolvableWithNext ns q) : resolvableWithNext ((relabelList f ns).1) q := by
  rw [← rwn_strip, stripIdsList_relabelList, rwn_strip]
  exact h

/-- Cloning preserves resolvability. -/
theorem ra_relabel (f : Nat) (ns : List DNode) (q : List Nat)
    (h : resolvableAt ns q) : resolvableAt ((relabelList f ns).1) q := by
  rw [← ra_strip, stripIdsList_relabelList, ra_strip]
  exact h

/-- Resolving a `node`-kind anchor on a path that addresses a node with a
next sibling succeeds, and the resulting `endBefore` is non-null. -/
theorem resolveNodeAnchor_ok : ∀ (q : List Nat) (cs : List DNode),
    resolvableWithNext cs q → ∃ sa e, resolveNodeAnchor cs q = .ok ⟨sa, some e⟩
  | [], _, h => h.elim
  | [j], cs, h => by
    obtain ⟨h1, h2⟩ := h
    cases hg : cs.get? j with
    | none => rw [hg] at h1; simp at h1
    | some n =>
      cases hg2 : cs.get? (j + 1) with
      | none => rw [hg2] at h2; simp at h2
      | some m =>
        refine ⟨if j = 0 then none else (cs.get? (j - 1)).map DNode.id, m.id, ?_⟩
        rw [resolveNodeAnchor, hg]
        simp only []
        rw [hg2]
        rfl
  | j :: k :: rest, cs, h => by
    obtain ⟨n, hn, hrec⟩ := h
    obtain ⟨sa, e, ih⟩ := resolveNodeAnchor_ok (k :: rest) n.children hrec
    refine ⟨sa, e, ?_⟩
    rw [resolveNodeAnchor, hn]
    exact ih
    exact fun hc => List.cons_ne_nil k rest hc

/-- Resolving an `attr-value` slot on a path that addresses an existing
node succeeds. -/
theorem resolveTargetId_ok : ∀ (q : List Nat) (cs : List DNode),
    resolvableAt cs q → ∃ x, resolveTargetId cs q = .ok x
  | [], _, h => h.elim
  | [j], cs, h => by
    have h' : (cs.get? j).isSome := h
    cases hg : cs.get? j with
    | none => rw [hg] at h'; simp at h'
    | some n =>
      refine ⟨n.id, ?_⟩
      rw [resolveTargetId, hg]
  | j :: k :: rest, cs, h => by
    obtain ⟨n, hn, hrec⟩ := h
    obtain ⟨x, ih⟩ := resolveTargetId_ok (k :: rest) n.children hrec
    refine ⟨x, ?_⟩
    rw [resolveTargetId, hn]
    exact ih
    exact fun hc => List.cons_ne_nil k rest hc

/-- The resolve loop succeeds on any slot list satisfying the compiler's
walk invariant at the top level, and every resolved `node` anchor carries a
non-null `endBefore`. -/
theorem resolveSlots_ok (frag : List DNode) : ∀ (ts : List TemplateSlot),
    (∀ s ∈ ts, slotOk frag [] 0 s) →
    ∃ rs, resolveSlots frag ts = .ok rs ∧ ∀ a ∈ rs, anchorEndPresent a := by
  intro ts
  induction ts with
  | nil => intro _; exact ⟨[], rfl, by intro a ha; cases ha⟩
  | cons t rest ih =>
    intro h
    obtain ⟨rs, hrs, hall⟩ := ih (fun s hs => h s (List.mem_cons_of_mem _ hs))
    cases t with
    | node path =>
      obtain ⟨j, tail, hpath, hres⟩ := h (.node path) (List.mem_cons_self _ _)
      obtain ⟨sa, e, hra⟩ := resolveNodeAnchor_ok (j :: tail) frag hres
      have hpath' : path = j :: tail := by simpa using hpath
      refine ⟨.node ⟨sa, some e⟩ :: rs, ?_, ?_⟩
      · rw [resolveSlots, hpath', hra, hrs]
        rfl
      · intro a ha
        rcases List.mem_cons.mp ha with h1 | h1
        · subst h1; exact rfl
        · exact hall a h1
    | attrValue path nm =>
      obtain ⟨j, tail, hpath, hres⟩ := h (.attrValue path nm) (List.mem_cons_self _ _)
      obtain ⟨x, hra⟩ := resolveTargetId_ok (j :: tail) frag hres
      have hpath' : path = j :: tail := by simpa using hpath
      refine ⟨.attrValue ⟨x, nm⟩ :: rs, ?_, ?_⟩
      · rw [resolveSlots, hpath', hra, hrs]
        rfl
      · intro a ha
        rcases List.mem_cons.mp ha with h1 | h1
        · subst h1; exact trivial
        · exact hall a h1

/-- The apply loop never fails when every `node` anchor it is handed has a
non-null `endBefore` (the only error paths dereference a null one). -/
theorem applySlots_ok : ∀ (pairs : List (TemplateInstanceSlot × TemplateArgument))
    (frag : List DNode) (fresh : Nat) (warns : List (List Char)),
    (∀ pr ∈ pairs, anchorEndPresent pr.1) →
    ∃ res, applySlots frag fresh warns pairs = .ok res
  | [], frag, fresh, warns, _ => ⟨(frag, fresh, warns), rfl⟩
  | (slot, arg) :: rest, frag, fresh, warns, h => by
    have h1 := h _ (List.mem_cons_self _ _)
    have hupd : ∃ out, updateSlot frag slot arg fresh = .ok out := by
      cases slot with
      | node a =>
        rcases a with ⟨sa0, eb⟩
        cases eb with
        | none => exact Bool.noConfusion h1
        | some e => exact ⟨_, rfl⟩
      | attrValue a => exact ⟨_, rfl⟩
    obtain ⟨out, hout⟩ := hupd
    rcases out with ⟨f2, fr2, ws2⟩
    obtain ⟨res, hres⟩ :=
      applySlots_ok rest f2 fr2 (warns ++ ws2) (fun pr hpr => h pr (List.mem_cons_of_mem _ hpr))
    refine ⟨res, ?_⟩
    rw [applySlots, hout]
    exact hres

/-- C4: for any template that compiles successfully and any argument
list, instantiation succeeds and every `node`-kind slot anchor it
produces has a non-null "after" boundary (`endBefore`): the compiler's
walk only emits marker addresses with a following sibling (the
unconditional split's remainder node), cloning preserves this, so
resolution always finds a next sibling and the unsound
`nextSibling as ChildNode` cast never actually smuggles in a null. -/
theorem c4_endBefore_present (strings : List (List Char)) (content : List DNode)
    (freshC : Nat) (tpl : Template)
    (hok : createTemplate strings content freshC = .ok tpl)
    (args : List TemplateArgument) (fresh : Nat) :
    ∃ inst ws, createTemplateInstance tpl args fresh = .ok (inst, ws) ∧
      ∀ a ∈ inst.nodeSlots, a.endBefore.isSome := by
  rcases hw : walkChildren freshC [] 0 content with ⟨ns, slots, f⟩
  rw [createTemplate, hw] at hok
  simp only [] at hok
  split at hok
  · cases hok
  · injection hok with hok
    subst hok
    have hslots : ∀ s ∈ slots, slotOk ns [] 0 s := by
      intro s hs
      have h0 := walkChildren_slots_ok freshC [] 0 content s (by rw [hw]; exact hs)
      rw [hw] at h0
      exact h0
    rcases hrel : relabelList fresh ns with ⟨clone, f0⟩
    have hclone : ∀ s ∈ slots, slotOk clone [] 0 s := by
      intro s hs
      have h0 := hslots s hs
      cases s with
      | node path =>
        obtain ⟨j, tail, hp, hres⟩ := h0
        refine ⟨j, tail, hp, ?_⟩
        have h2 := rwn_relabel fresh ns (j :: tail) hres
        rw [hrel] at h2
        exact h2
      | attrValue path nm =>
        obtain ⟨j, tail, hp, hres⟩ := h0
        refine ⟨j, tail, hp, ?_⟩
        have h2 := ra_relabel fresh ns (j :: tail) hres
        rw [hrel] at h2
        exact h2
    obtain ⟨rs, hrs, hall⟩ := resolveSlots_ok clone slots hclone
    obtain ⟨res, hres⟩ := applySlots_ok (rs.zip (padArgs args slots.length)) clone f0 []
      (by
        intro pr hpr
        rcases pr with ⟨p1, p2⟩
        exact hall p1 (List.mem_zip hpr).1)
    rcases res with ⟨frag1, fr1, ws1⟩
    refine ⟨{ fragment := frag1, slots := rs, nodeSlots := nodeSlotsOf rs,
              attrValueSlots := attrValueSlotsOf rs }, ws1, ?_, ?_⟩
    · rw [createTemplateInstance]
      simp only []
      rw [hrel]
      simp only []
      rw [hrs]
      simp only []
      rw [hres]
    · intro a ha
      simp only [] at ha
      rw [nodeSlotsOf] at ha
      obtain ⟨s, hs, hfa⟩ := List.mem_filterMap.mp ha
      cases s with
      | node a2 =>
        simp only [] at hfa
        injection hfa with hfa
        subst hfa
        exact hall _ hs
      | attrValue a2 =>
        simp only [] at hfa
        exact Option.noConfusion hfa

/-- C4 at a concrete input: the compiled `<p>⚡</p>` template,
instantiated with a missing (undefined) argument. -/
theorem c4_endBefore_present_witness :
    ∃ inst ws,
      createTemplateInstance demoTpl [TemplateArgument.nul] 40 = .ok (inst, ws) ∧
        ∀ a ∈ inst.nodeSlots, a.endBefore.isSome :=
  c4_endBefore_present demoStrings demoContent 10 demoTpl rfl [TemplateArgument.nul] 40
